import Mathlib

/-!
Shallow embedding of the SentencePiece unigram segmentation engine from
`src/spiece_basic.rs` and `src/spiece_dart.rs` (guillaume-be/SentencePiece-Rust-example).

Strings are modelled as `List Char`; all boundary indexing is in character units, matching
the `char_positions` machinery of the source (which precomputes the byte offset of every
character boundary exactly so that the dynamic program can index by character).

`f32` piece scores are modelled as exact rationals.  The two special values the source
relies on, `f32::NEG_INFINITY` (initial value of every `scores` cell) and `f32::MIN`
(the "unreachable" sentinel used by the fallback rule), are modelled by the inductive
type `F` below: `F.negInf` for negative infinity and the exact rational value of
`f32::MIN = -(2^128 - 2^104)` for the sentinel.
-/

/-- Score values: `f32::NEG_INFINITY` or a finite float, modelled exactly. -/
inductive F where
  | negInf : F
  | val : ℚ → F
deriving DecidableEq

/-- The exact rational value of `f32::MIN`, i.e. `-(2^128 - 2^104)`, written as an
integer literal so that it evaluates by kernel reduction. -/
def f32MIN : ℚ := -340282346638528859811704183484516925440

/-- `x + q` for a score cell `x` and a piece score `q` (`-∞ + q = -∞`, as for `f32`). -/
def F.add : F → ℚ → F
  | .negInf, _ => .negInf
  | .val a, q => .val (a + q)

/-- Strict `x < y` on scores, as `f32` comparison (`-∞ < v` for every finite `v`). -/
def F.blt : F → F → Bool
  | .negInf, .negInf => false
  | .negInf, .val _ => true
  | .val _, .negInf => false
  | .val a, .val b => decide (a < b)

/-- `x ≤ y` on scores, as `f32` comparison. -/
def F.ble : F → F → Bool
  | .negInf, _ => true
  | .val _, .negInf => false
  | .val a, .val b => decide (a ≤ b)

/-- The edge record `Node` of both source files: a matched (or fallback) piece together
with the running score, vocabulary id, and character-boundary `start`/`end` indices.
The Rust field `end` is a Lean keyword, so it is called `endIdx` here. -/
structure Node where
  text : List Char
  score : F
  index : Int
  start : Nat
  endIdx : Nat
deriving DecidableEq

/-- A loaded model's piece list: `(piece_text, score)` in file order; the id of a piece is
its 0-based position, exactly as `from_file` assigns `idx as i32`. -/
abbrev Pieces := List (List Char × ℚ)

/-- The substring of `t` between character boundaries `s` and `e`
(`&text[char_positions[s]..char_positions[e]]` in the source). -/
def sliceCC (t : List Char) (s e : Nat) : List Char := (t.drop s).take (e - s)

/-- `HashMap` lookup for the vocabulary built by `from_file`: entries are inserted in file
order and a duplicate text silently overwrites (last wins), so lookup returns the value of
the LAST entry whose text matches, paired with that entry's 0-based index. -/
def vocabFind : Pieces → Nat → List Char → Option (ℚ × Int)
  | [], _, _ => none
  | (t, sc) :: rest, idx, w =>
    match vocabFind rest (idx + 1) w with
    | some r => some r
    | none => if t = w then some (sc, Int.ofNat idx) else none

/-- `self.vocab.get(sub_text)` for the model loaded from `pieces`. -/
def vocabLookup (pieces : Pieces) (w : List Char) : Option (ℚ × Int) :=
  vocabFind pieces 0 w

/-! ### The naive forward pass (`SentencePieceModel::decode_forward` in `spiece_basic.rs`)

The Rust loop keeps two arrays `results`/`scores` indexed by character boundary; the cell
at boundary `char_end` is written only during the outer iteration `char_end` (inner loop
over `char_start`, then the fallback check), and only cells at strictly smaller boundaries
are read.  The embedding makes this state passing explicit: `forwardCells` builds the list
of `(scores[e], results[e])` cells boundary by boundary, each new cell computed by
`forwardCell` from the already-final earlier cells. -/

/-- One candidate inspection of the inner loop at `(char_start, char_end) = (nd.start, nd.endIdx)`:
`if local_score > scores[char_end] { overwrite edge and score }`. -/
def chooseStep : F × Option Node → Node → F × Option Node
  | (w, r), nd => if w.blt nd.score then (nd.score, some nd) else (w, r)

/-- The candidate edges examined by the inner loop at boundary `e`: for each
`char_start = s < e` whose substring is a vocabulary piece, the edge carrying
`local_score = scores[s] + piece_score`.  `prev` holds the final cells of all earlier
boundaries (the inner loop only reads `scores[char_start]` for `char_start < char_end`). -/
def candsAt (pieces : Pieces) (text : List Char) (prev : List (F × Option Node)) (e : Nat) :
    List Node :=
  (List.range e).filterMap (fun s =>
    match vocabLookup pieces (sliceCC text s e) with
    | none => none
    | some (sc, idx) =>
      some ⟨sliceCC text s e, ((prev.getD s (F.negInf, none)).1).add sc, idx, s, e⟩)

/-- The inner loop at boundary `e`: fold the candidate inspections over the initial cell
value (`scores[0] = 0`, every other cell starts at `NEG_INFINITY` with no edge). -/
def boundaryFold (pieces : Pieces) (text : List Char) (prev : List (F × Option Node))
    (e : Nat) : F × Option Node :=
  (candsAt pieces text prev e).foldl chooseStep
    (if e = 0 then (F.val 0, none) else (F.negInf, none))

/-- Boundary `e` of `decode_forward`: inner candidate loop, then the fallback rule
`if scores[char_end] <= f32::MIN { force the single-character edge, reset score to 0 }`. -/
def forwardCell (pieces : Pieces) (text : List Char) (prev : List (F × Option Node))
    (e : Nat) : F × Option Node :=
  let folded := boundaryFold pieces text prev e
  if folded.1.ble (F.val f32MIN) then
    (F.val 0, some ⟨sliceCC text (e - 1) e, F.val f32MIN, 0, e - 1, e⟩)
  else folded

/-- The cells for boundaries `0..=e`, built in increasing boundary order. -/
def forwardCells (pieces : Pieces) (text : List Char) : Nat → List (F × Option Node)
  | 0 => [forwardCell pieces text [] 0]
  | e + 1 =>
    let prev := forwardCells pieces text e
    prev ++ [forwardCell pieces text prev (e + 1)]

/-- `decode_forward`: the returned `results` vector (one `Option<Node>` per boundary). -/
def decode_forward (pieces : Pieces) (text : List Char) : List (Option Node) :=
  (forwardCells pieces text text.length).map (·.2)

/-- The final `scores` vector of the forward pass (internal to the Rust function). -/
def forwardScores (pieces : Pieces) (text : List Char) : List F :=
  (forwardCells pieces text text.length).map (·.1)

/-! ### The backward pass (`decode_backward`, identical in both source files) -/

/-- The `while next_node.is_some()` loop of `decode_backward`, with explicit fuel: the
source loop terminates only because followed `start` indices decrease, so the embedding
returns `none` when the fuel runs out (divergence) or when an out-of-bounds index would
panic is modelled by `getD _ none` (which cannot occur on lattices built by a forward
pass, see the theorems below).  Edges are pushed to the back of `acc` (`Vec::push`). -/
def backSteps : Nat → List (Option Node) → Option Node → List Node → Option (List Node)
  | 0, _, _, _ => none
  | fuel + 1, nodes, cur, acc =>
    match cur with
    | none => some acc.reverse
    | some nd => backSteps fuel nodes (nodes.getD nd.start none) (acc ++ [nd])

/-- `decode_backward`: start from `nodes.last().unwrap()` (panic on an empty vector,
modelled as `none`), follow `start` links until a `None` cell, then reverse. -/
def decode_backward (nodes : List (Option Node)) : Option (List Node) :=
  match nodes.getLast? with
  | none => none
  | some lastN => backSteps nodes.length nodes lastN []

/-! ### The tokenizer facade -/

/-- The reserved word-boundary marker `U+2581`. -/
def lowLine : Char := '▁'

/-- `text.replace(' ', "\u{2581}")`. -/
def normalizeText (cs : List Char) : List Char :=
  cs.map (fun c => if c = ' ' then lowLine else c)

/-- `tokenize` (naive strategy, `spiece_basic.rs`): normalize, forward, backward, then map
each edge to its substring text.  `none` models a panic of the Rust code. -/
def tokenize (pieces : Pieces) (raw : List Char) : Option (List (List Char)) :=
  let text := normalizeText raw
  (decode_backward (decode_forward pieces text)).map (List.map Node.text)

/-! ### The character trie (`DagNode`, `insert`, `common_prefix_search` in `spiece_basic.rs`) -/

/-- A trie node: accumulated text, its character count (`len`), piece score/id, `leaf`
marker, and the children map (a `HashMap<char, DagNode>`, modelled as an association
list; `insert` checks `contains_key` before inserting, so keys are unique). -/
inductive DagNode where
  | mk : List Char → Nat → ℚ → Int → Bool → List (Char × DagNode) → DagNode

def DagNode.text : DagNode → List Char
  | .mk t _ _ _ _ _ => t

def DagNode.len : DagNode → Nat
  | .mk _ l _ _ _ _ => l

def DagNode.score : DagNode → ℚ
  | .mk _ _ s _ _ _ => s

def DagNode.index : DagNode → Int
  | .mk _ _ _ i _ _ => i

def DagNode.leaf : DagNode → Bool
  | .mk _ _ _ _ b _ => b

def DagNode.children : DagNode → List (Char × DagNode)
  | .mk _ _ _ _ _ c => c

/-- `DagNode::new`: fresh node with `len = text.chars().count()`, score 0, index 0,
not a leaf, no children. -/
def DagNode.new (text : List Char) : DagNode :=
  .mk text text.length 0 0 false []

/-- `children.get(&character)`. -/
def childGet : List (Char × DagNode) → Char → Option DagNode
  | [], _ => none
  | (k, v) :: rest, c => if k = c then some v else childGet rest c

/-- `children.insert(character, node)` (replace the binding if the key exists). -/
def childSet : List (Char × DagNode) → Char → DagNode → List (Char × DagNode)
  | [], c, v => [(c, v)]
  | (k, w) :: rest, c, v => if k = c then (c, v) :: rest else (k, w) :: childSet rest c v

/-- Marking the node reached by the last inserted character:
`node.leaf = true; node.score = score; node.index = index` (children kept). -/
def markLeaf (nd : DagNode) (score : ℚ) (index : Int) : DagNode :=
  match nd with
  | .mk t l _ _ _ ch => .mk t l score index true ch

/-- `SentencePieceModel::insert`: walk/create one node per character of `word`
(each created node's text is the parent's text plus the edge character), and mark the
node reached by the last character as a leaf carrying `score`/`index`. -/
def trieInsert : DagNode → List Char → ℚ → Int → DagNode
  | node, [], _, _ => node
  | node, c :: rest, score, index =>
    let child :=
      match childGet node.children c with
      | some existing => existing
      | none => DagNode.new (node.text ++ [c])
    let child2 :=
      match rest with
      | [] => markLeaf child score index
      | _ :: _ => trieInsert child rest score index
    DagNode.mk node.text node.len node.score node.index node.leaf
      (childSet node.children c child2)

/-- The trie built by `from_file`: every piece inserted in file order into an empty root. -/
def buildTrieAux : DagNode → Nat → Pieces → DagNode
  | root, _, [] => root
  | root, idx, (t, sc) :: rest => buildTrieAux (trieInsert root t sc (Int.ofNat idx)) (idx + 1) rest

def buildTrie (pieces : Pieces) : DagNode :=
  buildTrieAux (DagNode.new []) 0 pieces

/-- The walk of `common_prefix_search`: descend one character at a time, pushing every
leaf node passed (`results.push`, so shortest prefixes first), stopping at the first
character with no trie edge. -/
def cpsWalk : DagNode → List Char → List DagNode → List DagNode
  | _, [], acc => acc
  | node, c :: rest, acc =>
    match childGet node.children c with
    | none => acc
    | some ch => cpsWalk ch rest (if ch.leaf then acc ++ [ch] else acc)

/-- `common_prefix_search` (`spiece_basic.rs`): the first step is
`characters.next().unwrap()`, which panics on an empty input (modelled as `none`);
on a non-empty input the walk never fails. -/
def common_prefix_search (root : DagNode) (text : List Char) : Option (List DagNode) :=
  match text with
  | [] => none
  | _ :: _ => some (cpsWalk root text [])

/-! ### The accelerated forward pass (`decode_forward_dag` in `spiece_basic.rs`)

Unlike the naive pass, an iteration of the outer loop (over `char_start`) writes cells at
several later boundaries, so the state is passed as the explicit pair of `results` and
`scores` vectors. -/

structure DPState where
  results : List (Option Node)
  scores : List F
deriving DecidableEq

/-- One match of `common_prefix_search` processed inside `decode_forward_dag`:
`char_end = char_start + node.len` (the trie stores `len` in characters), and the usual
strict-improvement update. -/
def dagMatchStep (text : List Char) (char_start : Nat) (st : DPState) (nd : DagNode) :
    DPState :=
  let local_score := (st.scores.getD char_start F.negInf).add nd.score
  let char_end := char_start + nd.len
  if (st.scores.getD char_end F.negInf).blt local_score then
    ⟨st.results.set char_end
      (some ⟨sliceCC text char_start char_end, local_score, nd.index, char_start, char_end⟩),
     st.scores.set char_end local_score⟩
  else st

/-- One iteration of the outer loop of `decode_forward_dag`: process all matches of the
suffix starting at `char_start`, then the fallback check at boundary `char_start + 1`. -/
def dagStartStep (root : DagNode) (text : List Char) (st : DPState) (char_start : Nat) :
    DPState :=
  let st1 := ((common_prefix_search root (text.drop char_start)).getD []).foldl
    (dagMatchStep text char_start) st
  if (st1.scores.getD (char_start + 1) F.negInf).ble (F.val f32MIN) then
    ⟨st1.results.set (char_start + 1)
      (some ⟨sliceCC text char_start (char_start + 1), F.val f32MIN, 0, char_start,
             char_start + 1⟩),
     st1.scores.set (char_start + 1) (F.val 0)⟩
  else st1

/-- The initial state of both accelerated passes: `results = vec![None; n+1]`,
`scores = vec![NEG_INFINITY; n+1]` with `scores[0] = 0`. -/
def dpInit (n : Nat) : DPState :=
  ⟨List.replicate (n + 1) none, (List.replicate (n + 1) F.negInf).set 0 (F.val 0)⟩

/-- The final state of `decode_forward_dag` (outer loop over `char_start in 0..n`; the
suffix passed to `common_prefix_search` is non-empty for every such `char_start`, so the
`unwrap` panic of the prefix search is unreachable and `getD [] ` is exact). -/
def dagForwardState (root : DagNode) (text : List Char) : DPState :=
  (List.range text.length).foldl (dagStartStep root text) (dpInit text.length)

/-- `decode_forward_dag`: the returned `results` vector. -/
def decode_forward_dag (root : DagNode) (text : List Char) : List (Option Node) :=
  (dagForwardState root text).results

/-- `tokenize_dag` (`spiece_basic.rs`): like `tokenize` but through the trie. -/
def tokenize_dag (pieces : Pieces) (raw : List Char) : Option (List (List Char)) :=
  let text := normalizeText raw
  (decode_backward (decode_forward_dag (buildTrie pieces) text)).map (List.map Node.text)

/-! ### The double-array-trie variant (`spiece_dart.rs`)

`from_file` there stores each vocabulary entry as a `Prefix` record whose `len` field is
`text.len()` — the BYTE length of the piece, not its character count — and
`decode_forward` computes `char_end = char_start + node.len` with it.  The
`DoubleArrayTrie` itself comes from the external `darts` crate (not part of this
repository); its query is modelled from the spec below.  Vector indexing is modelled
with explicit bounds checks returning `none` for a Rust panic. -/

/-- The `Prefix` record of `spiece_dart.rs` (`len` is `text.len()`, in bytes). -/
structure PrefixEntry where
  text : List Char
  len : Nat
  score : ℚ
  index : Int
deriving DecidableEq

/-- The UTF-8 byte count of one character. -/
def charUtf8Len (c : Char) : Nat :=
  if c.toNat < 0x80 then 1 else if c.toNat < 0x800 then 2 else if c.toNat < 0x10000 then 3 else 4

/-- `str::len()`: the UTF-8 byte length. -/
def byteLen (cs : List Char) : Nat := (cs.map charUtf8Len).sum

/-- `self.vocab.get(text)` in `spiece_dart.rs`: the stored `Prefix` record of the last
matching piece, with `len` in bytes as assigned by `from_file`. -/
def dartLookup (pieces : Pieces) (w : List Char) : Option PrefixEntry :=
  (vocabLookup pieces w).map (fun si => ⟨w, byteLen w, si.1, si.2⟩)

/-- Modelled from the spec: the `DoubleArrayTrie::common_prefix_search` of the external
`darts` crate (the compressed index is built from all piece texts and "returns where
matches end"): for each vocabulary piece that is a textual prefix of the input it yields
the boundary where the match ends, shortest prefix first.  Match boundaries are produced
here as character counts; the repository's wrapper turns each matched prefix back into
the stored `Prefix` record by exact vocabulary lookup. -/
def dartsCommonPrefixLens (pieces : Pieces) (cs : List Char) : List Nat :=
  (List.range cs.length).filterMap (fun k =>
    if (vocabLookup pieces (cs.take (k + 1))).isSome then some (k + 1) else none)

/-- `common_prefix_search` (`spiece_dart.rs`): resolve every match boundary through the
vocabulary to the stored `Prefix` record. -/
def dart_common_prefix_search (pieces : Pieces) (cs : List Char) : List PrefixEntry :=
  (dartsCommonPrefixLens pieces cs).filterMap (fun k => dartLookup pieces (cs.take k))

/-- One match processed inside `decode_forward` of `spiece_dart.rs`:
`char_end = char_start + node.len` with `node.len` in BYTES; reading
`scores[char_end]` panics (`none`) when `char_end` exceeds the boundary count. -/
def dartMatchStep (text : List Char) (char_start : Nat) (st : DPState) (e : PrefixEntry) :
    Option DPState :=
  let local_score := (st.scores.getD char_start F.negInf).add e.score
  let char_end := char_start + e.len
  if char_end < st.scores.length then
    if (st.scores.getD char_end F.negInf).blt local_score then
      some ⟨st.results.set char_end
        (some ⟨sliceCC text char_start char_end, local_score, e.index, char_start, char_end⟩),
       st.scores.set char_end local_score⟩
    else some st
  else none

/-- One outer-loop iteration of `decode_forward` in `spiece_dart.rs`. -/
def dartStartStep (pieces : Pieces) (text : List Char) (st : DPState) (char_start : Nat) :
    Option DPState := do
  let st1 ← (dart_common_prefix_search pieces (text.drop char_start)).foldlM
    (dartMatchStep text char_start) st
  if (st1.scores.getD (char_start + 1) F.negInf).ble (F.val f32MIN) then
    pure ⟨st1.results.set (char_start + 1)
      (some ⟨sliceCC text char_start (char_start + 1), F.val f32MIN, 0, char_start,
             char_start + 1⟩),
     st1.scores.set (char_start + 1) (F.val 0)⟩
  else
    pure st1

/-- `decode_forward` (`spiece_dart.rs`); `none` models a panic. -/
def dartDecodeForward (pieces : Pieces) (text : List Char) : Option (List (Option Node)) := do
  let fin ← (List.range text.length).foldlM (dartStartStep pieces text) (dpInit text.length)
  pure fin.results

/-- `tokenize_dag` (`spiece_dart.rs`); `none` models a panic. -/
def dartTokenizeDag (pieces : Pieces) (raw : List Char) : Option (List (List Char)) := do
  let text := normalizeText raw
  let output ← dartDecodeForward pieces text
  let decoded ← decode_backward output
  pure (decoded.map Node.text)

/-! ### List access helper lemmas -/

theorem getD_set_self {α : Type} : ∀ (l : List α) (i : Nat) (v d : α), i < l.length →
    (l.set i v).getD i d = v
  | [], i, _, _, h => absurd h (by simp)
  | _ :: _, 0, _, _, _ => rfl
  | _ :: xs, i + 1, v, d, h =>
    getD_set_self xs i v d (Nat.lt_of_succ_lt_succ (by simpa using h))

theorem getD_set_ne {α : Type} : ∀ (l : List α) (i j : Nat) (v d : α), i ≠ j →
    (l.set i v).getD j d = l.getD j d
  | [], _, _, _, _, _ => rfl
  | _ :: _, 0, 0, _, _, h => absurd rfl h
  | _ :: _, 0, _ + 1, _, _, _ => rfl
  | _ :: _, _ + 1, 0, _, _, _ => rfl
  | _ :: xs, i + 1, j + 1, v, d, h =>
    getD_set_ne xs i j v d (fun hij => h (by omega))

theorem getD_replicate {α : Type} : ∀ (n i : Nat) (a d : α), i < n →
    (List.replicate n a).getD i d = a
  | 0, _, _, _, h => absurd h (by simp)
  | _ + 1, 0, _, _, _ => rfl
  | n + 1, i + 1, a, d, h => getD_replicate n i a d (Nat.lt_of_succ_lt_succ h)

theorem getD_append_left {α : Type} : ∀ (l₁ l₂ : List α) (i : Nat) (d : α), i < l₁.length →
    (l₁ ++ l₂).getD i d = l₁.getD i d
  | [], _, i, _, h => absurd h (by simp)
  | _ :: _, _, 0, _, _ => rfl
  | _ :: xs, l₂, i + 1, d, h =>
    getD_append_left xs l₂ i d (Nat.lt_of_succ_lt_succ (by simpa using h))

theorem getD_append_at {α : Type} : ∀ (l₁ : List α) (x d : α),
    (l₁ ++ [x]).getD l₁.length d = x
  | [], _, _ => rfl
  | _ :: xs, x, d => getD_append_at xs x d

theorem getD_map {α β : Type} : ∀ (l : List α) (f : α → β) (i : Nat) (d : α) (d' : β),
    i < l.length → (l.map f).getD i d' = f (l.getD i d)
  | [], _, i, _, _, h => absurd h (by simp)
  | _ :: _, _, 0, _, _, _ => rfl
  | _ :: xs, f, i + 1, d, d', h =>
    getD_map xs f i d d' (Nat.lt_of_succ_lt_succ (by simpa using h))

theorem getD_oob {α : Type} : ∀ (l : List α) (i : Nat) (d : α), l.length ≤ i →
    l.getD i d = d
  | [], _, _, _ => rfl
  | x :: xs, i, d, h => by
    cases i with
    | zero => exact absurd h (by simp)
    | succ i => exact getD_oob xs i d (Nat.le_of_succ_le_succ (by simpa using h))

/-! ### The strict-improvement selection fold -/

/-- The running maximum of the inner-loop scores: what `scores[char_end]` holds after the
inspections in `cs`, starting from `w0`. -/
def foldMax (w0 : F) (cs : List Node) : F :=
  cs.foldl (fun w c => if w.blt c.score then c.score else w) w0

theorem foldl_chooseStep_fst : ∀ (cs : List Node) (w0 : F) (r0 : Option Node),
    (cs.foldl chooseStep (w0, r0)).1 = foldMax w0 cs
  | [], _, _ => rfl
  | c :: cs, w0, r0 => by
    show ((c :: cs).foldl chooseStep (w0, r0)).1 = foldMax w0 (c :: cs)
    simp only [List.foldl_cons, chooseStep, foldMax]
    by_cases h : w0.blt c.score = true
    · simp only [h, if_true]
      exact foldl_chooseStep_fst cs c.score (some c)
    · simp only [eq_false_of_ne_true h, if_false]
      exact foldl_chooseStep_fst cs w0 r0

theorem foldl_chooseStep_no_improve : ∀ (cs : List Node) (w0 : F) (r0 : Option Node),
    (∀ c ∈ cs, w0.blt c.score = false) →
    cs.foldl chooseStep (w0, r0) = (w0, r0)
  | [], _, _, _ => rfl
  | c :: cs, w0, r0, h => by
    show (c :: cs).foldl chooseStep (w0, r0) = (w0, r0)
    simp only [List.foldl_cons, chooseStep]
    rw [h c (List.mem_cons_self c cs), if_neg (by simp)]
    exact foldl_chooseStep_no_improve cs w0 r0 (fun d hd => h d (List.mem_cons_of_mem c hd))

theorem foldl_chooseStep_keeps_first_max (l₁ l₂ : List Node) (c : Node) (w0 : F)
    (r0 : Option Node) (h1 : (foldMax w0 l₁).blt c.score = true)
    (h2 : ∀ d ∈ l₂, c.score.blt d.score = false) :
    (l₁ ++ c :: l₂).foldl chooseStep (w0, r0) = (c.score, some c) := by
  rw [List.foldl_append]
  have hfst := foldl_chooseStep_fst l₁ w0 r0
  rcases hp : l₁.foldl chooseStep (w0, r0) with ⟨w1, r1⟩
  rw [hp] at hfst
  simp only at hfst
  subst hfst
  show (c :: l₂).foldl chooseStep (foldMax w0 l₁, r1) = (c.score, some c)
  simp only [List.foldl_cons, chooseStep]
  rw [if_pos h1]
  exact foldl_chooseStep_no_improve l₂ c.score (some c) h2

/-- Membership of the selected edge: the fold either keeps the initial register or selects
one of the inspected candidates, whose recorded score is exactly the final score. -/
theorem foldl_chooseStep_mem : ∀ (cs : List Node) (w0 : F) (r0 : Option Node),
    (cs.foldl chooseStep (w0, r0) = (w0, r0)) ∨
    (∃ c ∈ cs, cs.foldl chooseStep (w0, r0) = (c.score, some c))
  | [], _, _ => Or.inl rfl
  | c :: cs, w0, r0 => by
    show ((c :: cs).foldl chooseStep (w0, r0) = (w0, r0)) ∨ _
    simp only [List.foldl_cons, chooseStep]
    by_cases h : w0.blt c.score = true
    · rw [if_pos h]
      rcases foldl_chooseStep_mem cs c.score (some c) with h' | ⟨d, hd, h'⟩
      · exact Or.inr ⟨c, List.mem_cons_self c cs, h'⟩
      · exact Or.inr ⟨d, List.mem_cons_of_mem c hd, h'⟩
    · rw [if_neg (by simp [h])]
      rcases foldl_chooseStep_mem cs w0 r0 with h' | ⟨d, hd, h'⟩
      · exact Or.inl h'
      · exact Or.inr ⟨d, List.mem_cons_of_mem c hd, h'⟩

/-- Order facts about `F.blt` used below. -/
theorem F.blt_false_trans : ∀ x y z : F, x.blt y = false → y.blt z = false → x.blt z = false := by
  intro x y z
  cases x <;> cases y <;> cases z <;> simp [F.blt]
  intro h1 h2
  linarith

theorem F.blt_false_of : ∀ x y z : F, x.blt y = true → z.blt y = false → z.blt x = false := by
  intro x y z
  cases x <;> cases y <;> cases z <;> simp [F.blt]
  intro h1 h2
  linarith

/-- The final score dominates every inspected candidate and the initial value. -/
theorem foldMax_ge : ∀ (cs : List Node) (w0 : F),
    (foldMax w0 cs).blt w0 = false ∧ ∀ c ∈ cs, (foldMax w0 cs).blt c.score = false := by
  intro cs
  induction cs with
  | nil =>
    intro w0
    refine ⟨?_, by simp⟩
    cases w0 <;> simp [foldMax, F.blt]
  | cons c cs ih =>
    intro w0
    by_cases h : w0.blt c.score = true
    · have step : foldMax w0 (c :: cs) = foldMax c.score cs := by
        simp [foldMax, List.foldl_cons, h]
      rcases ih c.score with ⟨h1, h2⟩
      refine ⟨?_, ?_⟩
      · rw [step]
        exact F.blt_false_of w0 c.score _ h h1
      · intro d hd
        rcases List.mem_cons.mp hd with rfl | hd2
        · rw [step]
          exact h1
        · rw [step]
          exact h2 d hd2
    · have hb : w0.blt c.score = false := by simpa using h
      have step : foldMax w0 (c :: cs) = foldMax w0 cs := by
        simp [foldMax, List.foldl_cons, hb]
      rcases ih w0 with ⟨h1, h2⟩
      refine ⟨?_, ?_⟩
      · rw [step]
        exact h1
      · intro d hd
        rcases List.mem_cons.mp hd with rfl | hd2
        · rw [step]
          exact F.blt_false_trans _ _ _ h1 hb
        · rw [step]
          exact h2 d hd2

/-! ### Structure of the naive forward pass -/

theorem getD_irrel {α : Type} : ∀ (l : List α) (i : Nat) (d d' : α), i < l.length →
    l.getD i d = l.getD i d'
  | [], i, _, _, h => absurd h (by simp)
  | _ :: _, 0, _, _, _ => rfl
  | _ :: xs, i + 1, d, d', h =>
    getD_irrel xs i d d' (Nat.lt_of_succ_lt_succ (by simpa using h))

theorem forwardCells_length (p : Pieces) (t : List Char) :
    ∀ e, (forwardCells p t e).length = e + 1
  | 0 => rfl
  | e + 1 => by
    show (forwardCells p t e ++ [_]).length = e + 2
    simp [forwardCells_length p t e]

theorem forwardCells_succ (p : Pieces) (t : List Char) (e : Nat) :
    forwardCells p t (e + 1) =
      forwardCells p t e ++ [forwardCell p t (forwardCells p t e) (e + 1)] := rfl

theorem forwardCells_stable (p : Pieces) (t : List Char) :
    ∀ (e' e i : Nat) (d : F × Option Node), i ≤ e → e ≤ e' →
    (forwardCells p t e').getD i d = (forwardCells p t e).getD i d := by
  intro e'
  induction e' with
  | zero =>
    intro e i d _ he
    have : e = 0 := Nat.le_zero.mp he
    subst this
    rfl
  | succ e' ih =>
    intro e i d hie he
    rcases Nat.lt_or_ge e (e' + 1) with h | h
    · rw [forwardCells_succ,
        getD_append_left _ _ _ _ (by rw [forwardCells_length]; omega)]
      exact ih e i d hie (by omega)
    · have : e = e' + 1 := by omega
      subst this
      rfl

/-- The final cell `(scores[e], results[e])` at boundary `e`. -/
def cellAt (p : Pieces) (t : List Char) (e : Nat) : F × Option Node :=
  (forwardCells p t e).getD e (F.negInf, none)

theorem cellAt_le (p : Pieces) (t : List Char) {i e : Nat} (h : i ≤ e)
    (d : F × Option Node) : (forwardCells p t e).getD i d = cellAt p t i := by
  rw [forwardCells_stable p t e i i d le_rfl h]
  exact getD_irrel _ _ _ _ (by rw [forwardCells_length]; omega)

theorem cellAt_succ (p : Pieces) (t : List Char) (e : Nat) :
    cellAt p t (e + 1) = forwardCell p t (forwardCells p t e) (e + 1) := by
  unfold cellAt
  rw [forwardCells_succ]
  have : e + 1 = (forwardCells p t e).length := by rw [forwardCells_length]
  rw [this, getD_append_at]

theorem cellAt_zero (p : Pieces) (t : List Char) : cellAt p t 0 = (F.val 0, none) := by
  show forwardCell p t [] 0 = (F.val 0, none)
  unfold forwardCell boundaryFold candsAt
  simp only [List.range_zero, List.filterMap_nil, List.foldl_nil, if_pos rfl]
  have h : (F.val 0).ble (F.val f32MIN) = false := by decide
  simp [h]

theorem decode_forward_length (p : Pieces) (t : List Char) :
    (decode_forward p t).length = t.length + 1 := by
  unfold decode_forward
  rw [List.length_map, forwardCells_length]

theorem forwardScores_length (p : Pieces) (t : List Char) :
    (forwardScores p t).length = t.length + 1 := by
  unfold forwardScores
  rw [List.length_map, forwardCells_length]

theorem decode_forward_getD (p : Pieces) (t : List Char) {i : Nat} (h : i ≤ t.length) :
    (decode_forward p t).getD i none = (cellAt p t i).2 := by
  unfold decode_forward
  rw [getD_map _ _ _ (F.negInf, none) _ (by rw [forwardCells_length]; omega),
    cellAt_le p t h]

theorem forwardScores_getD (p : Pieces) (t : List Char) {i : Nat} (h : i ≤ t.length) :
    (forwardScores p t).getD i F.negInf = (cellAt p t i).1 := by
  unfold forwardScores
  rw [getD_map _ _ _ (F.negInf, none) _ (by rw [forwardCells_length]; omega),
    cellAt_le p t h]

/-! ### Vocabulary segmentations (the specification side of the Viterbi DP) -/

/-- `segs` is a valid segmentation of `w` into vocabulary pieces: the pieces concatenate
to `w` exactly, and every piece is a non-empty vocabulary entry. -/
def IsVocabSeg (pieces : Pieces) (segs : List (List Char)) (w : List Char) : Prop :=
  segs.flatten = w ∧ ∀ q ∈ segs, q ≠ [] ∧ (vocabLookup pieces q).isSome = true

/-- The score a vocabulary piece contributes. -/
def segPieceScore (pieces : Pieces) (q : List Char) : ℚ :=
  ((vocabLookup pieces q).getD (0, 0)).1

/-- The total score of a segmentation: the sum of its piece scores. -/
def segScore (pieces : Pieces) (segs : List (List Char)) : ℚ :=
  (segs.map (segPieceScore pieces)).sum

/-- Fueled enumeration of all vocabulary segmentations of `w` (every piece is non-empty,
so `w.length` fuel suffices). -/
def enumSegsF (pieces : Pieces) : Nat → List Char → List (List (List Char))
  | _, [] => [[]]
  | 0, _ :: _ => []
  | fuel + 1, c :: rest =>
    ((pieces.map Prod.fst).map (fun q =>
      if q ≠ [] ∧ q = (c :: rest).take q.length ∧ (vocabLookup pieces q).isSome = true then
        (enumSegsF pieces fuel ((c :: rest).drop q.length)).map (fun tl => q :: tl)
      else [])).flatten

/-- All vocabulary segmentations of `w`. -/
def enumSegs (pieces : Pieces) (w : List Char) : List (List (List Char)) :=
  enumSegsF pieces w.length w

theorem vocabFind_isSome_mem : ∀ (l : Pieces) (idx : Nat) (w : List Char),
    (vocabFind l idx w).isSome = true → w ∈ l.map Prod.fst := by
  intro l
  induction l with
  | nil => intro idx w h; simp [vocabFind] at h
  | cons hd tl ih =>
    intro idx w h
    obtain ⟨t, sc⟩ := hd
    unfold vocabFind at h
    rcases hrest : vocabFind tl (idx + 1) w with _ | r
    · rw [hrest] at h
      simp only at h
      by_cases ht : t = w
      · subst ht
        exact List.mem_cons_self _ _
      · rw [if_neg ht] at h
        simp at h
    · exact List.mem_cons_of_mem _ (ih (idx + 1) w (by rw [hrest]; rfl))

theorem vocabLookup_isSome_mem (pieces : Pieces) (w : List Char)
    (h : (vocabLookup pieces w).isSome = true) : w ∈ pieces.map Prod.fst :=
  vocabFind_isSome_mem pieces 0 w h

/-- Soundness of the enumeration. -/
theorem enumSegsF_sound (pieces : Pieces) : ∀ (fuel : Nat) (w : List Char)
    (segs : List (List Char)), segs ∈ enumSegsF pieces fuel w → IsVocabSeg pieces segs w := by
  intro fuel
  induction fuel with
  | zero =>
    intro w segs h
    cases w with
    | nil =>
      simp only [enumSegsF, List.mem_singleton] at h
      subst h
      exact ⟨rfl, by simp⟩
    | cons c rest => simp [enumSegsF] at h
  | succ fuel ih =>
    intro w segs h
    cases w with
    | nil =>
      simp only [enumSegsF, List.mem_singleton] at h
      subst h
      exact ⟨rfl, by simp⟩
    | cons c rest =>
      simp only [enumSegsF, List.mem_flatten, List.mem_map] at h
      obtain ⟨l, ⟨q, hq, hl⟩, hsegs⟩ := h
      by_cases hcond : q ≠ [] ∧ q = (c :: rest).take q.length ∧
          (vocabLookup pieces q).isSome = true
      · rw [if_pos hcond] at hl
        subst hl
        simp only [List.mem_map] at hsegs
        obtain ⟨tl, htl, rfl⟩ := hsegs
        obtain ⟨hjoin, hall⟩ := ih ((c :: rest).drop q.length) tl htl
        refine ⟨?_, ?_⟩
        · show q ++ tl.flatten = c :: rest
          rw [hjoin]
          nth_rewrite 1 [hcond.2.1]
          exact List.take_append_drop _ _
        · intro r hr
          rcases List.mem_cons.mp hr with rfl | hr'
          · exact ⟨hcond.1, hcond.2.2⟩
          · exact hall r hr'
      · rw [if_neg hcond] at hl
        subst hl
        simp at hsegs

/-- Completeness of the enumeration. -/
theorem enumSegsF_complete (pieces : Pieces) : ∀ (segs : List (List Char)) (w : List Char)
    (fuel : Nat), w.length ≤ fuel → IsVocabSeg pieces segs w →
    segs ∈ enumSegsF pieces fuel w := by
  intro segs
  induction segs with
  | nil =>
    intro w fuel _ hseg
    have : w = [] := by rw [← hseg.1]; rfl
    subst this
    cases fuel <;> simp [enumSegsF]
  | cons q tl ih =>
    intro w fuel hfuel hseg
    obtain ⟨hjoin, hall⟩ := hseg
    obtain ⟨hq_ne, hq_look⟩ := hall q (List.mem_cons_self _ _)
    have hw : w = q ++ tl.flatten := by rw [← hjoin]; rfl
    have hwne : w ≠ [] := by
      rw [hw]
      cases q with
      | nil => exact absurd rfl hq_ne
      | cons a b => simp
    obtain ⟨c, rest, rfl⟩ : ∃ c rest, w = c :: rest := by
      cases w with
      | nil => exact absurd rfl hwne
      | cons c rest => exact ⟨c, rest, rfl⟩
    have hlen : 1 ≤ (c :: rest).length := by simp
    obtain ⟨f, rfl⟩ : ∃ f, fuel = f + 1 := by
      cases fuel with
      | zero => simp at hfuel
      | succ f => exact ⟨f, rfl⟩
    have htake : q = (c :: rest).take q.length := by
      rw [hw, List.take_left]
    have hdrop : (c :: rest).drop q.length = tl.flatten := by
      rw [hw, List.drop_left]
    have hcond : q ≠ [] ∧ q = (c :: rest).take q.length ∧
        (vocabLookup pieces q).isSome = true := ⟨hq_ne, htake, hq_look⟩
    have htl_mem : tl ∈ enumSegsF pieces f ((c :: rest).drop q.length) := by
      rw [hdrop]
      refine ih tl.flatten f ?_ ⟨rfl, fun r hr => hall r (List.mem_cons_of_mem _ hr)⟩
      have : (c :: rest).length = q.length + tl.flatten.length := by
        rw [hw, List.length_append]
      have hq1 : 1 ≤ q.length := by
        cases q with
        | nil => exact absurd rfl hq_ne
        | cons _ _ => simp
      omega
    simp only [enumSegsF, List.mem_flatten, List.mem_map]
    refine ⟨(enumSegsF pieces f ((c :: rest).drop q.length)).map (fun t2 => q :: t2),
      ⟨q, ?_, ?_⟩, ?_⟩
    · simpa using vocabLookup_isSome_mem pieces q hq_look
    · rw [if_pos hcond]
    · exact List.mem_map_of_mem _ htl_mem

theorem enumSegs_iff (pieces : Pieces) (w : List Char) (segs : List (List Char)) :
    segs ∈ enumSegs pieces w ↔ IsVocabSeg pieces segs w :=
  ⟨enumSegsF_sound pieces w.length w segs,
   enumSegsF_complete pieces segs w w.length le_rfl⟩

/-! ### Helper facts about segmentations and candidates -/

theorem F.val_blt_false_iff (a b : ℚ) : (F.val a).blt (F.val b) = false ↔ b ≤ a := by
  simp [F.blt]

theorem F.val_ble_false_iff (a b : ℚ) : (F.val a).ble (F.val b) = false ↔ b < a := by
  simp [F.ble]

theorem segScore_nil (p : Pieces) : segScore p [] = 0 := rfl

theorem segScore_concat (p : Pieces) (l : List (List Char)) (q : List Char) :
    segScore p (l ++ [q]) = segScore p l + segPieceScore p q := by
  simp [segScore]

theorem isVocabSeg_nil_elim (p : Pieces) (segs : List (List Char))
    (h : IsVocabSeg p segs []) : segs = [] := by
  cases segs with
  | nil => rfl
  | cons q tl =>
    exfalso
    obtain ⟨hjoin, hall⟩ := h
    have hq := (hall q (List.mem_cons_self _ _)).1
    have : q ++ tl.flatten = [] := hjoin
    exact hq (List.append_eq_nil.mp this).1

theorem isVocabSeg_ne_nil (p : Pieces) (segs : List (List Char)) (w : List Char)
    (h : IsVocabSeg p segs w) (hw : w ≠ []) : segs ≠ [] := by
  intro hnil
  subst hnil
  exact hw h.1.symm

/-- Prefix plus a piece: `t.take s ++ sliceCC t s e = t.take e` for `s ≤ e`. -/
theorem take_append_slice (t : List Char) {s e : Nat} (hse : s ≤ e) :
    t.take s ++ sliceCC t s e = t.take e := by
  unfold sliceCC
  rw [List.take_drop]
  have h2 : s + (e - s) = e := by omega
  rw [h2]
  have h3 : t.take s = (t.take e).take s := by
    rw [List.take_take, Nat.min_eq_left hse]
  rw [h3, List.take_append_drop]

theorem slice_ne_nil (t : List Char) {s e : Nat} (hse : s < e) (hst : s < t.length) :
    sliceCC t s e ≠ [] := by
  unfold sliceCC
  intro h
  have h1 : ((t.drop s).take (e - s)).length = 0 := by rw [h]; rfl
  rw [List.length_take, List.length_drop] at h1
  omega

/-- Decomposition of a segmentation of the prefix ending at `e` into a segmentation of a
shorter prefix plus the final matched piece. -/
theorem isVocabSeg_decomp (p : Pieces) (t : List Char) {e : Nat} (he : e ≤ t.length)
    {segs : List (List Char)} (h : IsVocabSeg p segs (t.take e)) (hne : segs ≠ []) :
    ∃ (segs' : List (List Char)) (s : Nat) (sc : ℚ) (idx : Int),
      s < e ∧ IsVocabSeg p segs' (t.take s) ∧
      vocabLookup p (sliceCC t s e) = some (sc, idx) ∧
      segScore p segs = segScore p segs' + sc := by
  rcases List.eq_nil_or_concat segs with rfl | ⟨L, q, rfl⟩
  · exact absurd rfl hne
  obtain ⟨hjoin, hall⟩ := h
  have hflat : L.flatten ++ q = t.take e := by
    rw [← hjoin, List.concat_eq_append]
    simp
  obtain ⟨hq_ne, hq_look⟩ := hall q (by simp [List.concat_eq_append])
  have hlen_take : (t.take e).length = e := List.length_take_of_le he
  have hlen : L.flatten.length + q.length = e := by
    rw [← hlen_take, ← hflat, List.length_append]
  have hq1 : 1 ≤ q.length := by
    cases q with
    | nil => exact absurd rfl hq_ne
    | cons _ _ => simp
  set s := L.flatten.length with hs
  have hse : s < e := by omega
  have htake_s : t.take s = L.flatten := by
    have h1 : (t.take e).take s = t.take s := by
      rw [List.take_take, Nat.min_eq_left (by omega)]
    rw [← h1, ← hflat, List.take_left]
  have hslice : sliceCC t s e = q := by
    unfold sliceCC
    rw [List.take_drop]
    have h2 : s + (e - s) = e := by omega
    rw [h2, ← hflat, List.drop_left]
  obtain ⟨⟨sc, idx⟩, hlook⟩ := Option.isSome_iff_exists.mp hq_look
  refine ⟨L, s, sc, idx, hse, ?_, ?_, ?_⟩
  · refine ⟨htake_s.symm, fun r hr => hall r ?_⟩
    rw [List.concat_eq_append]
    exact List.mem_append_left _ hr
  · rw [hslice]
    exact hlook
  · rw [List.concat_eq_append, segScore_concat]
    congr 1
    unfold segPieceScore
    rw [hlook]
    rfl

/-- Composition: a segmentation of the prefix ending at `s` extended by the vocabulary
piece `sliceCC t s e` is a segmentation of the prefix ending at `e`. -/
theorem isVocabSeg_compose (p : Pieces) (t : List Char) {s e : Nat} (hse : s < e)
    (he : e ≤ t.length) {segs' : List (List Char)} (h : IsVocabSeg p segs' (t.take s))
    (hq : (vocabLookup p (sliceCC t s e)).isSome = true) :
    IsVocabSeg p (segs' ++ [sliceCC t s e]) (t.take e) := by
  refine ⟨?_, ?_⟩
  · rw [List.flatten_append]
    simp only [List.flatten_cons, List.flatten_nil, List.append_nil]
    rw [h.1]
    exact take_append_slice t (le_of_lt hse)
  · intro r hr
    rcases List.mem_append.mp hr with hr1 | hr2
    · exact h.2 r hr1
    · rw [List.mem_singleton.mp hr2]
      exact ⟨slice_ne_nil t hse (by omega), hq⟩

/-- Membership characterization of the candidate list at a boundary. -/
theorem candsAt_mem_iff (p : Pieces) (t : List Char) (prev : List (F × Option Node))
    (e : Nat) (c : Node) : c ∈ candsAt p t prev e ↔
      ∃ (s : Nat) (sc : ℚ) (idx : Int), s < e ∧
        vocabLookup p (sliceCC t s e) = some (sc, idx) ∧
        c = ⟨sliceCC t s e, ((prev.getD s (F.negInf, none)).1).add sc, idx, s, e⟩ := by
  unfold candsAt
  rw [List.mem_filterMap]
  constructor
  · rintro ⟨s, hs, hc⟩
    rcases hlook : vocabLookup p (sliceCC t s e) with _ | ⟨sc, idx⟩
    · rw [hlook] at hc
      simp at hc
    · rw [hlook] at hc
      simp only [Option.some.injEq] at hc
      exact ⟨s, sc, idx, List.mem_range.mp hs, hlook, hc.symm⟩
  · rintro ⟨s, sc, idx, hs, hlook, rfl⟩
    refine ⟨s, List.mem_range.mpr hs, ?_⟩
    rw [hlook]

theorem boundaryFold_succ (p : Pieces) (t : List Char) (prev : List (F × Option Node))
    (e : Nat) : boundaryFold p t prev (e + 1) =
      (candsAt p t prev (e + 1)).foldl chooseStep (F.negInf, none) := by
  unfold boundaryFold
  rw [if_neg (Nat.succ_ne_zero e)]

/-- Viterbi correctness of the naive forward pass under the hypotheses that every prefix
boundary up to `i` is reachable by vocabulary pieces alone and no segmentation score ever
falls to the `f32::MIN` sentinel (so the fallback rule stays quiet). -/
theorem cellAt_optimal (p : Pieces) (t : List Char) :
    ∀ i, i ≤ t.length →
    (∀ j, 1 ≤ j → j ≤ i → ∃ segs, IsVocabSeg p segs (t.take j)) →
    (∀ j, j ≤ i → ∀ segs, IsVocabSeg p segs (t.take j) → f32MIN < segScore p segs) →
    ∃ segs, IsVocabSeg p segs (t.take i) ∧
      (cellAt p t i).1 = F.val (segScore p segs) ∧
      ∀ segs', IsVocabSeg p segs' (t.take i) → segScore p segs' ≤ segScore p segs := by
  intro i
  induction i using Nat.strong_induction_on with
  | _ i ih =>
    intro hi hseg hbig
    cases i with
    | zero =>
      refine ⟨[], by simp [IsVocabSeg], ?_, ?_⟩
      · rw [cellAt_zero, segScore_nil]
      · intro segs' hs'
        rw [List.take_zero] at hs'
        rw [isVocabSeg_nil_elim p segs' hs']
    | succ e =>
      have he1 : e + 1 ≤ t.length := hi
      have IH : ∀ s, s < e + 1 → ∃ sg, IsVocabSeg p sg (t.take s) ∧
          (cellAt p t s).1 = F.val (segScore p sg) ∧
          ∀ sg', IsVocabSeg p sg' (t.take s) → segScore p sg' ≤ segScore p sg := by
        intro s hs
        exact ih s hs (by omega) (fun j h1 h2 => hseg j h1 (by omega))
          (fun j h2 segs hsg => hbig j (by omega) segs hsg)
      -- every segmentation of the prefix ending at e+1 yields a dominating candidate
      have keycand : ∀ segs, IsVocabSeg p segs (t.take (e + 1)) →
          ∃ c ∈ candsAt p t (forwardCells p t e) (e + 1), ∃ a : ℚ,
            c.score = F.val a ∧ segScore p segs ≤ a := by
        intro segs hsegs
        have hne : segs ≠ [] := by
          refine isVocabSeg_ne_nil p segs _ hsegs ?_
          intro hempty
          have : (t.take (e + 1)).length = e + 1 := List.length_take_of_le he1
          rw [hempty] at this
          simp at this
        obtain ⟨segs', s, sc, idx, hse, hsegs', hlook, hscore⟩ :=
          isVocabSeg_decomp p t he1 hsegs hne
        obtain ⟨sg, hsgIs, hcell, hmax⟩ := IH s hse
        have hprev : ((forwardCells p t e).getD s (F.negInf, none)).1 = F.val (segScore p sg) := by
          rw [cellAt_le p t (by omega) _]
          exact hcell
        refine ⟨⟨sliceCC t s (e + 1), ((forwardCells p t e).getD s (F.negInf, none)).1.add sc,
          idx, s, e + 1⟩, ?_, segScore p sg + sc, ?_, ?_⟩
        · rw [candsAt_mem_iff]
          exact ⟨s, sc, idx, hse, hlook, rfl⟩
        · show (((forwardCells p t e).getD s (F.negInf, none)).1.add sc) = _
          rw [hprev]
          rfl
        · rw [hscore]
          have := hmax segs' hsegs'
          linarith
      -- the fold selects a candidate that realizes an achievable segmentation score
      obtain ⟨segs0, hsegs0⟩ := hseg (e + 1) (by omega) le_rfl
      obtain ⟨c0, hc0mem, a0, hc0score, _⟩ := keycand segs0 hsegs0
      have hfold_eq : boundaryFold p t (forwardCells p t e) (e + 1) =
          (candsAt p t (forwardCells p t e) (e + 1)).foldl chooseStep (F.negInf, none) :=
        boundaryFold_succ p t (forwardCells p t e) e
      rcases foldl_chooseStep_mem (candsAt p t (forwardCells p t e) (e + 1)) F.negInf none
        with hinit | ⟨c, hcmem, hfold⟩
      · exfalso
        have h1 : foldMax F.negInf (candsAt p t (forwardCells p t e) (e + 1)) = F.negInf := by
          rw [← foldl_chooseStep_fst, hinit]
        have h2 := (foldMax_ge (candsAt p t (forwardCells p t e) (e + 1)) F.negInf).2 c0 hc0mem
        rw [h1, hc0score] at h2
        simp [F.blt] at h2
      · obtain ⟨s, sc, idx, hse, hlook, hcval⟩ := (candsAt_mem_iff _ _ _ _ c).mp hcmem
        obtain ⟨sg, hsgIs, hcell, hmax⟩ := IH s hse
        have hprev : ((forwardCells p t e).getD s (F.negInf, none)).1 = F.val (segScore p sg) := by
          rw [cellAt_le p t (by omega) _]
          exact hcell
        have hcscore : c.score = F.val (segScore p sg + sc) := by
          rw [hcval]
          show ((forwardCells p t e).getD s (F.negInf, none)).1.add sc = _
          rw [hprev]
          rfl
        have hlook_some : (vocabLookup p (sliceCC t s (e + 1))).isSome = true := by
          rw [hlook]
          rfl
        have hnewIs : IsVocabSeg p (sg ++ [sliceCC t s (e + 1)]) (t.take (e + 1)) :=
          isVocabSeg_compose p t hse he1 hsgIs hlook_some
        have hnewScore : segScore p (sg ++ [sliceCC t s (e + 1)]) = segScore p sg + sc := by
          rw [segScore_concat]
          congr 1
          unfold segPieceScore
          rw [hlook]
          rfl
        have hfold1 : (boundaryFold p t (forwardCells p t e) (e + 1)).1 =
            F.val (segScore p (sg ++ [sliceCC t s (e + 1)])) := by
          rw [hfold_eq, hfold, hnewScore]
          exact hcscore
        -- the fallback rule does not fire because the achieved score is above the sentinel
        have hbigNew : f32MIN < segScore p (sg ++ [sliceCC t s (e + 1)]) :=
          hbig (e + 1) le_rfl _ hnewIs
        have hcell_eq : (cellAt p t (e + 1)).1 =
            F.val (segScore p (sg ++ [sliceCC t s (e + 1)])) := by
          rw [cellAt_succ]
          simp only [forwardCell]
          rw [hfold1, (F.val_ble_false_iff _ _).mpr hbigNew]
          exact hfold1
        refine ⟨sg ++ [sliceCC t s (e + 1)], hnewIs, hcell_eq, ?_⟩
        -- maximality: every other segmentation is dominated through its candidate
        intro segs' hsegs'
        obtain ⟨c', hc'mem, a', hc'score, hc'ge⟩ := keycand segs' hsegs'
        have hdom := (foldMax_ge (candsAt p t (forwardCells p t e) (e + 1)) F.negInf).2 c' hc'mem
        have hfmax : foldMax F.negInf (candsAt p t (forwardCells p t e) (e + 1)) =
            F.val (segScore p (sg ++ [sliceCC t s (e + 1)])) := by
          rw [← foldl_chooseStep_fst, hfold, hnewScore]
          exact hcscore
        rw [hfmax, hc'score, F.val_blt_false_iff] at hdom
        linarith

/-! ### Structural facts about the naive lattice -/

theorem cellAt_succ_spec (p : Pieces) (t : List Char) (e : Nat) :
    cellAt p t (e + 1) =
      if (boundaryFold p t (forwardCells p t e) (e + 1)).1.ble (F.val f32MIN) then
        (F.val 0, some ⟨sliceCC t e (e + 1), F.val f32MIN, 0, e, e + 1⟩)
      else boundaryFold p t (forwardCells p t e) (e + 1) := by
  rw [cellAt_succ]
  simp only [forwardCell]
  rfl

/-- Every edge the naive pass stores at boundary `e` ends at `e`, starts strictly before
it, and carries exactly the substring between its boundaries. -/
theorem naive_edge_wf (p : Pieces) (t : List Char) :
    ∀ e (nd : Node), (cellAt p t e).2 = some nd →
      nd.start < nd.endIdx ∧ nd.endIdx = e ∧ nd.text = sliceCC t nd.start nd.endIdx := by
  intro e nd h
  cases e with
  | zero =>
    rw [cellAt_zero] at h
    simp at h
  | succ e =>
    rw [cellAt_succ_spec] at h
    by_cases hf : (boundaryFold p t (forwardCells p t e) (e + 1)).1.ble (F.val f32MIN) = true
    · rw [if_pos hf] at h
      simp only [Option.some.injEq] at h
      subst h
      exact ⟨Nat.lt_succ_self e, rfl, rfl⟩
    · rw [if_neg (by simpa using hf)] at h
      rw [boundaryFold_succ] at h
      rcases foldl_chooseStep_mem (candsAt p t (forwardCells p t e) (e + 1)) F.negInf none
        with hinit | ⟨c, hcmem, hfold⟩
      · rw [hinit] at h
        simp at h
      · rw [hfold] at h
        simp only [Option.some.injEq] at h
        subst h
        obtain ⟨s, sc, idx, hse, _, rfl⟩ := (candsAt_mem_iff _ _ _ _ c).mp hcmem
        exact ⟨hse, rfl, rfl⟩

/-- Every boundary `1 ≤ e` carries an edge after the naive pass. -/
theorem naive_edge_isSome (p : Pieces) (t : List Char) :
    ∀ e, 1 ≤ e → ((cellAt p t e).2).isSome = true := by
  intro e he
  cases e with
  | zero => omega
  | succ e =>
    rw [cellAt_succ_spec]
    by_cases hf : (boundaryFold p t (forwardCells p t e) (e + 1)).1.ble (F.val f32MIN) = true
    · rw [if_pos hf]
      rfl
    · rw [if_neg (by simpa using hf)]
      rw [boundaryFold_succ] at hf ⊢
      rcases foldl_chooseStep_mem (candsAt p t (forwardCells p t e) (e + 1)) F.negInf none
        with hinit | ⟨c, _, hfold⟩
      · exfalso
        rw [hinit] at hf
        exact hf rfl
      · rw [hfold]
        rfl

theorem naive_edge_none_zero (p : Pieces) (t : List Char) : (cellAt p t 0).2 = none := by
  rw [cellAt_zero]

/-! ### Well-formedness of the character trie -/

/-- Structural invariant of trie nodes: `len` caches the character count of `text`, and
every child under edge character `c` extends the parent's text by exactly `c`. -/
inductive TrieWF : DagNode → Prop where
  | mk (t : List Char) (l : Nat) (sc : ℚ) (ix : Int) (lf : Bool)
      (ch : List (Char × DagNode)) (hlen : l = t.length)
      (htext : ∀ pr ∈ ch, (pr.2).text = t ++ [pr.1])
      (hch : ∀ pr ∈ ch, TrieWF pr.2) :
      TrieWF (.mk t l sc ix lf ch)

theorem TrieWF.len_eq {nd : DagNode} (h : TrieWF nd) : nd.len = nd.text.length := by
  cases h with
  | mk t l sc ix lf ch hlen htext hch => exact hlen

theorem TrieWF.child_text {nd : DagNode} (h : TrieWF nd) :
    ∀ pr ∈ nd.children, (pr.2).text = nd.text ++ [pr.1] := by
  cases h with
  | mk t l sc ix lf ch hlen htext hch => exact htext

theorem TrieWF.child_wf {nd : DagNode} (h : TrieWF nd) :
    ∀ pr ∈ nd.children, TrieWF pr.2 := by
  cases h with
  | mk t l sc ix lf ch hlen htext hch => exact hch

theorem childGet_mem : ∀ (l : List (Char × DagNode)) (c : Char) (v : DagNode),
    childGet l c = some v → (c, v) ∈ l := by
  intro l
  induction l with
  | nil => intro c v h; simp [childGet] at h
  | cons pr rest ih =>
    intro c v h
    obtain ⟨k, w⟩ := pr
    unfold childGet at h
    by_cases hk : k = c
    · rw [if_pos hk] at h
      simp only [Option.some.injEq] at h
      subst hk
      subst h
      exact List.mem_cons_self _ _
    · rw [if_neg hk] at h
      exact List.mem_cons_of_mem _ (ih c v h)

theorem childSet_mem : ∀ (l : List (Char × DagNode)) (c : Char) (v : DagNode)
    (pr : Char × DagNode), pr ∈ childSet l c v → pr = (c, v) ∨ pr ∈ l := by
  intro l
  induction l with
  | nil =>
    intro c v pr h
    simp only [childSet, List.mem_singleton] at h
    exact Or.inl h
  | cons hd rest ih =>
    intro c v pr h
    obtain ⟨k, w⟩ := hd
    unfold childSet at h
    by_cases hk : k = c
    · rw [if_pos hk] at h
      rcases List.mem_cons.mp h with rfl | h'
      · exact Or.inl rfl
      · exact Or.inr (List.mem_cons_of_mem _ h')
    · rw [if_neg hk] at h
      rcases List.mem_cons.mp h with rfl | h'
      · exact Or.inr (List.mem_cons_self _ _)
      · rcases ih c v pr h' with h2 | h2
        · exact Or.inl h2
        · exact Or.inr (List.mem_cons_of_mem _ h2)

theorem DagNode.new_wf (t : List Char) : TrieWF (DagNode.new t) :=
  TrieWF.mk t t.length 0 0 false [] rfl (by simp) (by simp)

theorem markLeaf_text (nd : DagNode) (sc : ℚ) (ix : Int) :
    (markLeaf nd sc ix).text = nd.text := by
  cases nd
  rfl

theorem markLeaf_wf {nd : DagNode} (h : TrieWF nd) (sc : ℚ) (ix : Int) :
    TrieWF (markLeaf nd sc ix) := by
  cases nd with
  | mk t l nsc nix nlf nch =>
    cases h with
    | mk _ _ _ _ _ _ hlen htext hch => exact TrieWF.mk t l sc ix true nch hlen htext hch

theorem trieInsert_text_len : ∀ (w : List Char) (nd : DagNode) (sc : ℚ) (ix : Int),
    (trieInsert nd w sc ix).text = nd.text ∧ (trieInsert nd w sc ix).len = nd.len := by
  intro w
  cases w with
  | nil => intro nd sc ix; exact ⟨rfl, rfl⟩
  | cons c rest => intro nd sc ix; exact ⟨rfl, rfl⟩

/-- Replacing one child binding by a well-formed node with the right text keeps the
invariant. -/
theorem node_update_wf (nd : DagNode) (c : Char) (child2 : DagNode) (h : TrieWF nd)
    (h2text : child2.text = nd.text ++ [c]) (h2wf : TrieWF child2) :
    TrieWF (DagNode.mk nd.text nd.len nd.score nd.index nd.leaf
      (childSet nd.children c child2)) := by
  refine TrieWF.mk _ _ _ _ _ _ h.len_eq ?_ ?_
  · intro pr hpr
    rcases childSet_mem nd.children c child2 pr hpr with rfl | hold
    · exact h2text
    · exact h.child_text pr hold
  · intro pr hpr
    rcases childSet_mem nd.children c child2 pr hpr with rfl | hold
    · exact h2wf
    · exact h.child_wf pr hold

/-- `insert` preserves the trie invariant. -/
theorem trieInsert_wf : ∀ (w : List Char) (nd : DagNode) (sc : ℚ) (ix : Int), TrieWF nd →
    TrieWF (trieInsert nd w sc ix) := by
  intro w
  induction w with
  | nil => intro nd sc ix h; exact h
  | cons c rest ih =>
    intro nd sc ix h
    obtain ⟨child, hcheq, hctext, hcwf⟩ :
        ∃ child, (match childGet nd.children c with
          | some existing => existing
          | none => DagNode.new (nd.text ++ [c])) = child ∧
          child.text = nd.text ++ [c] ∧ TrieWF child := by
      rcases hget : childGet nd.children c with _ | existing
      · exact ⟨DagNode.new (nd.text ++ [c]), rfl, rfl, DagNode.new_wf _⟩
      · exact ⟨existing, rfl, h.child_text (c, existing) (childGet_mem _ _ _ hget),
          h.child_wf (c, existing) (childGet_mem _ _ _ hget)⟩
    cases rest with
    | nil =>
      show TrieWF (DagNode.mk nd.text nd.len nd.score nd.index nd.leaf
        (childSet nd.children c (markLeaf (match childGet nd.children c with
          | some existing => existing
          | none => DagNode.new (nd.text ++ [c])) sc ix)))
      rw [hcheq]
      exact node_update_wf nd c _ h (by rw [markLeaf_text, hctext]) (markLeaf_wf hcwf sc ix)
    | cons r rs =>
      show TrieWF (DagNode.mk nd.text nd.len nd.score nd.index nd.leaf
        (childSet nd.children c (trieInsert (match childGet nd.children c with
          | some existing => existing
          | none => DagNode.new (nd.text ++ [c])) (r :: rs) sc ix)))
      rw [hcheq]
      exact node_update_wf nd c _ h
        (by rw [(trieInsert_text_len (r :: rs) child sc ix).1, hctext])
        (ih child sc ix hcwf)

theorem buildTrieAux_wf : ∀ (l : Pieces) (root : DagNode) (idx : Nat), TrieWF root →
    TrieWF (buildTrieAux root idx l) ∧ (buildTrieAux root idx l).len = root.len := by
  intro l
  induction l with
  | nil => intro root idx h; exact ⟨h, rfl⟩
  | cons pr rest ih =>
    intro root idx h
    obtain ⟨t, sc⟩ := pr
    have h1w := trieInsert_wf t root sc (Int.ofNat idx) h
    have h1l := (trieInsert_text_len t root sc (Int.ofNat idx)).2
    have h2 := ih (trieInsert root t sc (Int.ofNat idx)) (idx + 1) h1w
    refine ⟨h2.1, ?_⟩
    show (buildTrieAux (trieInsert root t sc (Int.ofNat idx)) (idx + 1) rest).len = root.len
    rw [h2.2, h1l]

theorem buildTrie_wf (p : Pieces) : TrieWF (buildTrie p) ∧ (buildTrie p).len = 0 :=
  buildTrieAux_wf p (DagNode.new []) 0 (DagNode.new_wf [])

/-- Every node collected by the prefix-search walk below `nd` sits `k` characters deeper,
for some `1 ≤ k ≤` length of the remaining input. -/
theorem cpsWalk_mem : ∀ (cs : List Char) (nd : DagNode) (acc : List DagNode),
    TrieWF nd → ∀ x ∈ cpsWalk nd cs acc,
      x ∈ acc ∨ ∃ k, 1 ≤ k ∧ k ≤ cs.length ∧ x.len = nd.len + k := by
  intro cs
  induction cs with
  | nil =>
    intro nd acc _ x hx
    exact Or.inl hx
  | cons c rest ih =>
    intro nd acc hwf x hx
    unfold cpsWalk at hx
    rcases hget : childGet nd.children c with _ | ch
    · rw [hget] at hx
      exact Or.inl hx
    · rw [hget] at hx
      have hchtext := hwf.child_text (c, ch) (childGet_mem _ c ch hget)
      have hchwf := hwf.child_wf (c, ch) (childGet_mem _ c ch hget)
      have hchlen : ch.len = nd.len + 1 := by
        rw [hchwf.len_eq, hchtext, List.length_append, hwf.len_eq]
        rfl
      rcases ih ch _ hchwf x hx with hacc | ⟨k, hk1, hk2, hk3⟩
      · by_cases hleaf : ch.leaf = true
        · rw [if_pos hleaf] at hacc
          rcases List.mem_append.mp hacc with h1 | h2
          · exact Or.inl h1
          · rw [List.mem_singleton.mp h2]
            exact Or.inr ⟨1, le_rfl, by simp, hchlen⟩
        · rw [if_neg hleaf] at hacc
          exact Or.inl hacc
      · refine Or.inr ⟨k + 1, by omega, by simp; omega, ?_⟩
        rw [hk3, hchlen]
        omega

/-! ### Invariant of the accelerated forward loop -/

/-- State invariant after the outer-loop iterations for `char_start < k` have run. -/
structure DagInv (t : List Char) (k : Nat) (st : DPState) : Prop where
  hrlen : st.results.length = t.length + 1
  hslen : st.scores.length = t.length + 1
  hzero : st.results.getD 0 none = none
  hedge : ∀ e nd, st.results.getD e none = some nd →
      nd.start < nd.endIdx ∧ nd.endIdx = e ∧ nd.endIdx ≤ t.length ∧
      nd.text = sliceCC t nd.start nd.endIdx
  hlink : ∀ e, 1 ≤ e → st.results.getD e none = none →
      st.scores.getD e F.negInf = F.negInf
  hsome : ∀ e, 1 ≤ e → e ≤ k → (st.results.getD e none).isSome = true

theorem dpInit_inv (t : List Char) : DagInv t 0 (dpInit t.length) := by
  refine ⟨?_, ?_, ?_, ?_, ?_, ?_⟩
  · simp [dpInit]
  · simp [dpInit]
  · show (List.replicate (t.length + 1) (none : Option Node)).getD 0 none = none
    rw [getD_replicate _ _ _ _ (by omega)]
  · intro e nd h
    exfalso
    show False
    rcases Nat.lt_or_ge e (t.length + 1) with he | he
    · rw [show (dpInit t.length).results = List.replicate (t.length + 1) none from rfl,
        getD_replicate _ _ _ _ he] at h
      exact Option.noConfusion h
    · rw [show (dpInit t.length).results = List.replicate (t.length + 1) none from rfl,
        getD_oob _ _ _ (by simp; omega)] at h
      exact Option.noConfusion h
  · intro e he _
    show ((List.replicate (t.length + 1) F.negInf).set 0 (F.val 0)).getD e F.negInf = F.negInf
    rw [getD_set_ne _ _ _ _ _ (by omega)]
    rcases Nat.lt_or_ge e (t.length + 1) with h2 | h2
    · rw [getD_replicate _ _ _ _ h2]
    · rw [getD_oob _ _ _ (by simp; omega)]
  · intro e h1 h2
    omega

/-- One strict-improvement match update preserves the invariant and leaves every boundary
up to `k` untouched (it only writes at `k + nd.len ≥ k + 1`). -/
theorem dagMatchStep_inv (t : List Char) (k : Nat) (st : DPState) (nd : DagNode)
    (hinv : DagInv t k st) (hlen1 : 1 ≤ nd.len) (hlen2 : k + nd.len ≤ t.length) :
    DagInv t k (dagMatchStep t k st nd) ∧
      ∀ e, e ≤ k → (dagMatchStep t k st nd).results.getD e none = st.results.getD e none := by
  unfold dagMatchStep
  by_cases hblt : (st.scores.getD (k + nd.len) F.negInf).blt
      ((st.scores.getD k F.negInf).add nd.score) = true
  · rw [if_pos hblt]
    constructor
    · refine ⟨?_, ?_, ?_, ?_, ?_, ?_⟩
      · simp [List.length_set, hinv.hrlen]
      · simp [List.length_set, hinv.hslen]
      · rw [getD_set_ne _ _ _ _ _ (by omega)]
        exact hinv.hzero
      · intro e nd' h
        by_cases he : k + nd.len = e
        · subst he
          rw [getD_set_self _ _ _ _ (by rw [hinv.hrlen]; omega)] at h
          simp only [Option.some.injEq] at h
          subst h
          exact ⟨by show k < k + nd.len; omega, rfl, hlen2, rfl⟩
        · rw [getD_set_ne _ _ _ _ _ he] at h
          exact hinv.hedge e nd' h
      · intro e he h
        by_cases hee : k + nd.len = e
        · subst hee
          rw [getD_set_self _ _ _ _ (by rw [hinv.hrlen]; omega)] at h
          exact Option.noConfusion h
        · rw [getD_set_ne _ _ _ _ _ hee] at h
          rw [getD_set_ne _ _ _ _ _ hee]
          exact hinv.hlink e he h
      · intro e h1 h2
        rw [getD_set_ne _ _ _ _ _ (by omega)]
        exact hinv.hsome e h1 h2
    · intro e he
      rw [getD_set_ne _ _ _ _ _ (by omega)]
  · rw [if_neg (by simpa using hblt)]
    exact ⟨hinv, fun e _ => rfl⟩

/-- Processing a whole match list (all of whose nodes have lengths in `[1, n-k]`). -/
theorem dagMatchFold_inv (t : List Char) (k : Nat) :
    ∀ (ms : List DagNode) (st : DPState), DagInv t k st →
    (∀ x ∈ ms, 1 ≤ x.len ∧ k + x.len ≤ t.length) →
    DagInv t k (ms.foldl (dagMatchStep t k) st) ∧
      ∀ e, e ≤ k →
        (ms.foldl (dagMatchStep t k) st).results.getD e none = st.results.getD e none := by
  intro ms
  induction ms with
  | nil => intro st hinv _; exact ⟨hinv, fun _ _ => rfl⟩
  | cons m rest ih =>
    intro st hinv hms
    have h1 := dagMatchStep_inv t k st m hinv (hms m (List.mem_cons_self _ _)).1
      (hms m (List.mem_cons_self _ _)).2
    have h2 := ih (dagMatchStep t k st m) h1.1 (fun x hx => hms x (List.mem_cons_of_mem _ hx))
    refine ⟨h2.1, fun e he => ?_⟩
    rw [List.foldl_cons, h2.2 e he, h1.2 e he]

/-- The matches examined at `char_start = k < n` all have trie length in `[1, n-k]`. -/
theorem dag_matches_len (root : DagNode) (t : List Char) (hwf : TrieWF root)
    (hlen0 : root.len = 0) (k : Nat) (hk : k < t.length) :
    ∀ x ∈ (common_prefix_search root (t.drop k)).getD [],
      1 ≤ x.len ∧ k + x.len ≤ t.length := by
  intro x hx
  have hne : t.drop k ≠ [] := by
    intro h
    have := List.length_drop k t
    rw [h] at this
    simp at this
    omega
  obtain ⟨c, rest, hdrop⟩ : ∃ c rest, t.drop k = c :: rest := by
    cases hd : t.drop k with
    | nil => exact absurd hd hne
    | cons c rest => exact ⟨c, rest, rfl⟩
  rw [hdrop] at hx
  have : (common_prefix_search root (c :: rest)).getD [] = cpsWalk root (c :: rest) [] := rfl
  rw [this] at hx
  rcases cpsWalk_mem (c :: rest) root [] hwf x hx with h | ⟨j, hj1, hj2, hj3⟩
  · simp at h
  · have hdl : (c :: rest).length = t.length - k := by
      rw [← hdrop, List.length_drop]
    rw [hlen0] at hj3
    simp only [Nat.zero_add] at hj3
    constructor
    · omega
    · rw [hj3]
      omega

/-- One outer-loop iteration of `decode_forward_dag` advances the invariant. -/
theorem dagStartStep_inv (root : DagNode) (t : List Char) (hwf : TrieWF root)
    (hlen0 : root.len = 0) (k : Nat) (hk : k < t.length) (st : DPState)
    (hinv : DagInv t k st) : DagInv t (k + 1) (dagStartStep root t st k) := by
  unfold dagStartStep
  have hfold := dagMatchFold_inv t k ((common_prefix_search root (t.drop k)).getD []) st hinv
    (dag_matches_len root t hwf hlen0 k hk)
  set st1 := ((common_prefix_search root (t.drop k)).getD []).foldl (dagMatchStep t k) st
    with hst1
  by_cases hble : (st1.scores.getD (k + 1) F.negInf).ble (F.val f32MIN) = true
  · rw [if_pos hble]
    refine ⟨?_, ?_, ?_, ?_, ?_, ?_⟩
    · simp [List.length_set, hfold.1.hrlen]
    · simp [List.length_set, hfold.1.hslen]
    · rw [getD_set_ne _ _ _ _ _ (by omega)]
      exact hfold.1.hzero
    · intro e nd' h
      by_cases he : k + 1 = e
      · subst he
        rw [getD_set_self _ _ _ _ (by rw [hfold.1.hrlen]; omega)] at h
        simp only [Option.some.injEq] at h
        subst h
        exact ⟨by show k < k + 1; omega, rfl, by show k + 1 ≤ t.length; omega, rfl⟩
      · rw [getD_set_ne _ _ _ _ _ he] at h
        exact hfold.1.hedge e nd' h
    · intro e he h
      by_cases hee : k + 1 = e
      · subst hee
        rw [getD_set_self _ _ _ _ (by rw [hfold.1.hrlen]; omega)] at h
        exact Option.noConfusion h
      · rw [getD_set_ne _ _ _ _ _ hee] at h
        rw [getD_set_ne _ _ _ _ _ hee]
        exact hfold.1.hlink e he h
    · intro e h1 h2
      by_cases hee : k + 1 = e
      · subst hee
        rw [getD_set_self _ _ _ _ (by rw [hfold.1.hrlen]; omega)]
        rfl
      · rw [getD_set_ne _ _ _ _ _ hee]
        exact hfold.1.hsome e h1 (by omega)
  · rw [if_neg (by simpa using hble)]
    refine ⟨hfold.1.hrlen, hfold.1.hslen, hfold.1.hzero, hfold.1.hedge, hfold.1.hlink, ?_⟩
    intro e h1 h2
    by_cases hee : e = k + 1
    · subst hee
      -- the fallback did not fire, so the score is not -∞ and the edge must be present
      rcases hres : st1.results.getD (k + 1) none with _ | nd'
      · exfalso
        have := hfold.1.hlink (k + 1) (by omega) hres
        rw [this] at hble
        exact hble rfl
      · rfl
    · exact hfold.1.hsome e h1 (by omega)

/-- The invariant holds of the final state of the accelerated pass. -/
theorem dagForwardState_inv (root : DagNode) (t : List Char) (hwf : TrieWF root)
    (hlen0 : root.len = 0) : DagInv t t.length (dagForwardState root t) := by
  unfold dagForwardState
  suffices h : ∀ k, k ≤ t.length →
      DagInv t k ((List.range k).foldl (dagStartStep root t) (dpInit t.length)) by
    exact h t.length le_rfl
  intro k
  induction k with
  | zero => intro _; exact dpInit_inv t
  | succ k ih =>
    intro hk
    rw [List.range_succ, List.foldl_append]
    exact dagStartStep_inv root t hwf hlen0 k (by omega) _ (ih (by omega))

/-! ### The backward pass on a complete lattice -/

theorem getLast?_eq_getD {α : Type} : ∀ (l : List α) (d : α), l ≠ [] →
    l.getLast? = some (l.getD (l.length - 1) d) := by
  intro l
  induction l with
  | nil => intro d h; exact absurd rfl h
  | cons x rest ih =>
    intro d _
    cases rest with
    | nil => rfl
    | cons y rest' =>
      rw [List.getLast?_cons_cons, ih d (by simp)]
      rfl

/-- Walking back from boundary `e` of a well-formed complete lattice always succeeds and
yields the left-to-right chain of edges covering `[0, e)`. -/
theorem backSteps_spec (t : List Char) (results : List (Option Node))
    (_hzero : results.getD 0 none = none)
    (hedge : ∀ e nd, results.getD e none = some nd →
        nd.start < nd.endIdx ∧ nd.endIdx = e ∧ nd.endIdx ≤ t.length ∧
        nd.text = sliceCC t nd.start nd.endIdx)
    (hsome : ∀ e, 1 ≤ e → e ≤ t.length → (results.getD e none).isSome = true) :
    ∀ e, e ≤ t.length →
    ∃ seqe : List Node,
      (∀ fuel, e < fuel → ∀ acc, backSteps fuel results (results.getD e none) acc =
        some (seqe ++ acc.reverse)) ∧
      ((seqe.map Node.text).flatten = t.take e) ∧
      List.Chain' (fun a b => b.start = a.endIdx) seqe ∧
      (∀ nd ∈ seqe, nd.start < nd.endIdx) ∧
      ((seqe = [] ∧ e = 0) ∨
        (∃ first lastN, seqe.head? = some first ∧ first.start = 0 ∧
          seqe.getLast? = some lastN ∧ lastN.endIdx = e)) := by
  intro e
  induction e using Nat.strong_induction_on with
  | _ e ih =>
    intro he
    rcases hres : results.getD e none with _ | nd
    · -- no edge: only possible at boundary 0
      have he0 : e = 0 := by
        by_contra h
        have := hsome e (by omega) he
        rw [hres] at this
        exact Bool.noConfusion this
      refine ⟨[], ?_, ?_, ?_, ?_, Or.inl ⟨rfl, he0⟩⟩
      · intro fuel hfuel acc
        obtain ⟨f, rfl⟩ : ∃ f, fuel = f + 1 := by
          cases fuel with
          | zero => omega
          | succ f => exact ⟨f, rfl⟩
        rfl
      · rw [he0]
        rfl
      · exact List.chain'_nil
      · simp
    · obtain ⟨hlt, hend, hle, htext⟩ := hedge e nd hres
      have hstart : nd.start < e := by omega
      obtain ⟨seqs, hrun, hflat, hchain, hlts, hcase⟩ :=
        ih nd.start hstart (by omega)
      refine ⟨seqs ++ [nd], ?_, ?_, ?_, ?_, ?_⟩
      · intro fuel hfuel acc
        obtain ⟨f, rfl⟩ : ∃ f, fuel = f + 1 := by
          cases fuel with
          | zero => omega
          | succ f => exact ⟨f, rfl⟩
        show backSteps f results (results.getD nd.start none) (acc ++ [nd]) = _
        rw [hrun f (by omega) (acc ++ [nd])]
        rw [List.reverse_append]
        simp
      · rw [List.map_append, List.flatten_append]
        simp only [List.map_cons, List.map_nil, List.flatten_cons, List.flatten_nil,
          List.append_nil]
        rw [hflat, htext, hend]
        exact take_append_slice t (by omega)
      · rw [List.chain'_append]
        refine ⟨hchain, List.chain'_singleton nd, ?_⟩
        intro x hx y hy
        simp only [List.head?_cons, Option.mem_def, Option.some.injEq] at hy
        subst hy
        rcases hcase with ⟨hnil, hs0⟩ | ⟨first, lastN, _, _, hlast, hlastend⟩
        · rw [hnil] at hx
          simp at hx
        · rw [hlast] at hx
          simp only [Option.mem_def, Option.some.injEq] at hx
          subst hx
          omega
      · intro x hx
        rcases List.mem_append.mp hx with h1 | h2
        · exact hlts x h1
        · rw [List.mem_singleton.mp h2]
          omega
      · refine Or.inr ?_
        rcases hcase with ⟨hnil, hs0⟩ | ⟨first, lastN, hfirst, hfirst0, hlast, hlastend⟩
        · subst hnil
          exact ⟨nd, nd, rfl, by omega, by simp, hend⟩
        · refine ⟨first, nd, ?_, hfirst0, ?_, hend⟩
          · cases seqs with
            | nil => simp at hfirst
            | cons a b =>
              simp only [List.head?_cons, Option.some.injEq] at hfirst
              subst hfirst
              rfl
          · rw [List.getLast?_concat]

/-- On a well-formed complete lattice the backward pass succeeds and the collected edges
tile the whole input from left to right. -/
theorem backward_complete (t : List Char) (results : List (Option Node))
    (hlen : results.length = t.length + 1)
    (hzero : results.getD 0 none = none)
    (hedge : ∀ e nd, results.getD e none = some nd →
        nd.start < nd.endIdx ∧ nd.endIdx = e ∧ nd.endIdx ≤ t.length ∧
        nd.text = sliceCC t nd.start nd.endIdx)
    (hsome : ∀ e, 1 ≤ e → e ≤ t.length → (results.getD e none).isSome = true) :
    ∃ seq : List Node, decode_backward results = some seq ∧
      (seq.map Node.text).flatten = t ∧
      List.Chain' (fun a b => b.start = a.endIdx) seq ∧
      (∀ nd ∈ seq, nd.start < nd.endIdx) := by
  obtain ⟨seq, hrun, hflat, hchain, hlts, _⟩ :=
    backSteps_spec t results hzero hedge hsome t.length le_rfl
  refine ⟨seq, ?_, ?_, hchain, hlts⟩
  · unfold decode_backward
    have hne : results ≠ [] := by
      intro h
      rw [h] at hlen
      simp at hlen
    rw [getLast?_eq_getD results none hne]
    have hl1 : results.length - 1 = t.length := by omega
    rw [hl1]
    have := hrun results.length (by omega) []
    simp only [List.reverse_nil, List.append_nil] at this
    exact this
  · rw [hflat, List.take_length]

/-! ### Lattice fact bundles for the two total forward passes -/

theorem naive_lattice_facts (p : Pieces) (t : List Char) :
    (decode_forward p t).length = t.length + 1 ∧
    (decode_forward p t).getD 0 none = none ∧
    (∀ e nd, (decode_forward p t).getD e none = some nd →
        nd.start < nd.endIdx ∧ nd.endIdx = e ∧ nd.endIdx ≤ t.length ∧
        nd.text = sliceCC t nd.start nd.endIdx) ∧
    (∀ e, 1 ≤ e → e ≤ t.length → ((decode_forward p t).getD e none).isSome = true) := by
  refine ⟨decode_forward_length p t, ?_, ?_, ?_⟩
  · rw [decode_forward_getD p t (Nat.zero_le _)]
    exact naive_edge_none_zero p t
  · intro e nd h
    by_cases he : e ≤ t.length
    · rw [decode_forward_getD p t he] at h
      obtain ⟨h1, h2, h3⟩ := naive_edge_wf p t e nd h
      exact ⟨h1, h2, by omega, h3⟩
    · exfalso
      rw [getD_oob _ _ _ (by rw [decode_forward_length]; omega)] at h
      exact Option.noConfusion h
  · intro e h1 h2
    rw [decode_forward_getD p t h2]
    exact naive_edge_isSome p t e h1

theorem dag_lattice_facts (p : Pieces) (t : List Char) :
    (decode_forward_dag (buildTrie p) t).length = t.length + 1 ∧
    (decode_forward_dag (buildTrie p) t).getD 0 none = none ∧
    (∀ e nd, (decode_forward_dag (buildTrie p) t).getD e none = some nd →
        nd.start < nd.endIdx ∧ nd.endIdx = e ∧ nd.endIdx ≤ t.length ∧
        nd.text = sliceCC t nd.start nd.endIdx) ∧
    (∀ e, 1 ≤ e → e ≤ t.length →
        ((decode_forward_dag (buildTrie p) t).getD e none).isSome = true) := by
  have inv := dagForwardState_inv (buildTrie p) t (buildTrie_wf p).1 (buildTrie_wf p).2
  exact ⟨inv.hrlen, inv.hzero, inv.hedge, inv.hsome⟩

theorem dagMatchFold_length (t : List Char) (k : Nat) : ∀ (ms : List DagNode) (st : DPState),
    (ms.foldl (dagMatchStep t k) st).results.length = st.results.length ∧
    (ms.foldl (dagMatchStep t k) st).scores.length = st.scores.length := by
  intro ms
  induction ms with
  | nil => intro st; exact ⟨rfl, rfl⟩
  | cons m rest ih =>
    intro st
    rw [List.foldl_cons]
    have h1 : (dagMatchStep t k st m).results.length = st.results.length ∧
        (dagMatchStep t k st m).scores.length = st.scores.length := by
      unfold dagMatchStep
      by_cases hblt : (st.scores.getD (k + m.len) F.negInf).blt
          ((st.scores.getD k F.negInf).add m.score) = true
      · rw [if_pos hblt]
        exact ⟨List.length_set _ _ _, List.length_set _ _ _⟩
      · rw [if_neg (by simpa using hblt)]
        exact ⟨rfl, rfl⟩
    have h2 := ih (dagMatchStep t k st m)
    exact ⟨by rw [h2.1, h1.1], by rw [h2.2, h1.2]⟩

/-- `IsVocabSeg` is decidable (used to check concrete instances). -/
instance (p : Pieces) (segs : List (List Char)) (w : List Char) :
    Decidable (IsVocabSeg p segs w) := by
  unfold IsVocabSeg
  infer_instance

/-! ### Concrete vocabularies used in the examples -/

/-- The spec's Example 1 vocabulary: `{"un": -0.1, "do": -0.2, "undo": -0.15}`. -/
def undoVocab : Pieces := [("un".toList, -1/10), ("do".toList, -1/5), ("undo".toList, -3/20)]

/-- A one-piece vocabulary whose piece text starts with the multi-byte word-boundary
marker: `{"▁a": -1.0}` (the shape every real SentencePiece vocabulary has). -/
def markerVocab : Pieces := [("▁a".toList, -1)]

/-- `{"ab": -1, "xa": -10, "b": -10}`: used to separate the DP value from the best
vocabulary-segmentation score downstream of a fallback reset. -/
def xabVocab : Pieces := [("ab".toList, -1), ("xa".toList, -10), ("b".toList, -10)]

/-- The spec's Example 2 vocabulary: `{"a": -1.0}`. -/
def unitVocab : Pieces := [("a".toList, -1)]

/-! ### Claim theorems -/

/-- C1: the naive pass and the CharTrie pass agree on the vocabulary `{"▁a": -1}` and
input `"▁a"`, but the DoubleArrayTrie-backed pass panics on the very same input (its
`Prefix.len` is the byte length 4 of the 2-character piece, so it indexes `scores[4]`
in a 3-cell array), so the three strategies are NOT equivalent: the spec is the intent
and `spiece_dart.rs` is the slip. -/
theorem dart_pass_diverges_on_multibyte_piece :
    decode_forward_dag (buildTrie markerVocab) "▁a".toList =
      decode_forward markerVocab "▁a".toList ∧
    decode_forward markerVocab "▁a".toList =
      [none, some ⟨['▁'], F.val f32MIN, 0, 0, 1⟩,
       some ⟨"▁a".toList, F.val (-1), 0, 0, 2⟩] ∧
    dartDecodeForward markerVocab "▁a".toList = none :=
  ⟨by with_unfolding_all rfl, by with_unfolding_all rfl, by with_unfolding_all rfl⟩

/-- C3: `spiece_dart.rs` stores `Prefix.len = text.len()` in BYTES (4 for the
2-character piece `"▁a"`), and its forward pass computes `char_end = char_start + len`
with it; the CharTrie pass correctly stores the edge with `end = start + 2` while the
DART pass panics indexing boundary `0 + 4` of a 3-boundary lattice. -/
theorem dart_len_in_bytes_not_chars :
    (dartLookup markerVocab "▁a".toList).map PrefixEntry.len = some 4 ∧
    ("▁a".toList).length = 2 ∧
    (decode_forward_dag (buildTrie markerVocab) "▁a".toList).getD 2 none =
      some ⟨"▁a".toList, F.val (-1), 0, 0, 2⟩ ∧
    dartDecodeForward markerVocab "▁a".toList = none :=
  ⟨by with_unfolding_all rfl, rfl, by with_unfolding_all rfl, by with_unfolding_all rfl⟩

/-- C2 (counterexample): `tokenize_dag` of `spiece_dart.rs` is NOT total: on the
vocabulary `{"▁a": -1}` and raw input `" a"` it panics (models as `none`), while the
naive `tokenize` returns `["▁a"]`. -/
theorem dart_tokenize_dag_panics :
    dartTokenizeDag markerVocab " a".toList = none ∧
    tokenize markerVocab " a".toList = some ["▁a".toList] :=
  ⟨by with_unfolding_all rfl, by with_unfolding_all rfl⟩

/-- C2 (amended): for every vocabulary and every input string, `tokenize` and the
CharTrie-backed `tokenize_dag` of `spiece_basic.rs` are total and the concatenation of
the returned pieces is exactly the normalized input. -/
theorem tokenize_total_and_covering (p : Pieces) (raw : List Char) :
    (∃ out, tokenize p raw = some out ∧ out.flatten = normalizeText raw) ∧
    (∃ out, tokenize_dag p raw = some out ∧ out.flatten = normalizeText raw) := by
  constructor
  · obtain ⟨hlen, hzero, hedge, hsome⟩ := naive_lattice_facts p (normalizeText raw)
    obtain ⟨seq, hrun, hflat, _, _⟩ :=
      backward_complete (normalizeText raw) (decode_forward p (normalizeText raw))
        hlen hzero hedge hsome
    refine ⟨seq.map Node.text, ?_, hflat⟩
    show (decode_backward (decode_forward p (normalizeText raw))).map (List.map Node.text)
      = some (seq.map Node.text)
    rw [hrun]
    rfl
  · obtain ⟨hlen, hzero, hedge, hsome⟩ := dag_lattice_facts p (normalizeText raw)
    obtain ⟨seq, hrun, hflat, _, _⟩ :=
      backward_complete (normalizeText raw)
        (decode_forward_dag (buildTrie p) (normalizeText raw)) hlen hzero hedge hsome
    refine ⟨seq.map Node.text, ?_, hflat⟩
    show (decode_backward (decode_forward_dag (buildTrie p) (normalizeText raw))).map
      (List.map Node.text) = some (seq.map Node.text)
    rw [hrun]
    rfl

/-- C8: the empty input tokenizes to the empty token sequence, for every vocabulary,
under both total strategies: the lattice has only boundary 0 and the backward pass
terminates immediately. -/
theorem empty_input_tokenizes_empty (p : Pieces) :
    tokenize p [] = some [] ∧ tokenize_dag p [] = some [] ∧
    decode_forward p [] = [none] := by
  have hnaive : decode_forward p ([] : List Char) = [none] := by
    have h : decode_forward p ([] : List Char) = [(cellAt p [] 0).2] := rfl
    rw [h, naive_edge_none_zero]
  have hdag : decode_forward_dag (buildTrie p) ([] : List Char) = [none] := rfl
  refine ⟨?_, ?_, hnaive⟩
  · show (decode_backward (decode_forward p (normalizeText []))).map (List.map Node.text)
      = some []
    rw [show normalizeText [] = [] from rfl, hnaive]
    rfl
  · show (decode_backward (decode_forward_dag (buildTrie p)
      (normalizeText []))).map (List.map Node.text) = some []
    rw [show normalizeText [] = [] from rfl, hdag]
    rfl

/-- C9: `common_prefix_search` of `spiece_basic.rs` panics on the empty string (it
unwraps the first character) and returns without panicking on every non-empty string. -/
theorem common_prefix_search_empty_is_panic (root : DagNode) (cs : List Char)
    (h : cs ≠ []) :
    common_prefix_search root [] = none ∧
    (common_prefix_search root cs).isSome = true := by
  refine ⟨rfl, ?_⟩
  cases cs with
  | nil => exact absurd rfl h
  | cons c rest => rfl

theorem common_prefix_search_empty_is_panic_witness :
    (('a' :: []) ≠ ([] : List Char)) ∧
    (common_prefix_search (buildTrie unitVocab) [] = none ∧
     (common_prefix_search (buildTrie unitVocab) ['a']).isSome = true) :=
  ⟨by decide, common_prefix_search_empty_is_panic (buildTrie unitVocab) ['a'] (by decide)⟩

/-- C4 (counterexample): on `xabVocab` and input `"xab"`, the only vocabulary
segmentation of the prefix ending at boundary 3 is `["xa", "b"]` with score `-20`; the
forward pass instead carries `best_score[3] = -1` (built on the fallback reset at
boundary 1, whose stored edge is the non-sentinel candidate `"ab"`), so `best_score[3]`
is not the maximum achievable segmentation sum although boundary 3 was never reset. -/
theorem best_score_differs_from_seg_max :
    (forwardScores xabVocab "xab".toList).getD 3 F.negInf = F.val (-1) ∧
    (decode_forward xabVocab "xab".toList).getD 3 none =
      some ⟨"ab".toList, F.val (-1), 0, 1, 3⟩ ∧
    (∀ segs, IsVocabSeg xabVocab segs ("xab".toList) → segScore xabVocab segs = -20) ∧
    ((-1 : ℚ) ≠ -20) := by
  refine ⟨by with_unfolding_all rfl, by with_unfolding_all rfl, ?_, by norm_num⟩
  intro segs h
  have hmem := (enumSegs_iff xabVocab ("xab".toList) segs).mpr h
  rw [show enumSegs xabVocab "xab".toList = [["xa".toList, "b".toList]] from
    by with_unfolding_all rfl] at hmem
  simp only [List.mem_singleton] at hmem
  subst hmem
  with_unfolding_all rfl

/-- C4 (amended): at every boundary `i` whose every prefix boundary `1..i` admits a
vocabulary segmentation, all of whose segmentation scores stay above the `f32::MIN`
sentinel, `best_score[i]` equals the maximum achievable segmentation sum; and the spec's
Example 1 holds: `{"un": -0.1, "do": -0.2, "undo": -0.15}` tokenizes `"undo"` as
`["undo"]`. -/
theorem dp_optimal_for_reachable_prefixes (p : Pieces) (t : List Char) (i : Nat)
    (hi : i ≤ t.length)
    (hreach : ∀ j, 1 ≤ j → j ≤ i → ∃ segs, IsVocabSeg p segs (t.take j))
    (habove : ∀ j, j ≤ i → ∀ segs, IsVocabSeg p segs (t.take j) →
      f32MIN < segScore p segs) :
    (∃ segs, IsVocabSeg p segs (t.take i) ∧
      (forwardScores p t).getD i F.negInf = F.val (segScore p segs) ∧
      ∀ segs', IsVocabSeg p segs' (t.take i) → segScore p segs' ≤ segScore p segs) ∧
    tokenize undoVocab "undo".toList = some ["undo".toList] := by
  constructor
  · obtain ⟨segs, h1, h2, h3⟩ := cellAt_optimal p t i hi hreach habove
    refine ⟨segs, h1, ?_, h3⟩
    rw [forwardScores_getD p t hi]
    exact h2
  · with_unfolding_all rfl

theorem dp_optimal_for_reachable_prefixes_witness :
    (2 ≤ ("aa".toList).length) ∧
    (∀ j, 1 ≤ j → j ≤ 2 → ∃ segs, IsVocabSeg unitVocab segs (("aa".toList).take j)) ∧
    (∀ j, j ≤ 2 → ∀ segs, IsVocabSeg unitVocab segs (("aa".toList).take j) →
      f32MIN < segScore unitVocab segs) ∧
    ((∃ segs, IsVocabSeg unitVocab segs (("aa".toList).take 2) ∧
      (forwardScores unitVocab "aa".toList).getD 2 F.negInf =
        F.val (segScore unitVocab segs) ∧
      ∀ segs', IsVocabSeg unitVocab segs' (("aa".toList).take 2) →
        segScore unitVocab segs' ≤ segScore unitVocab segs) ∧
    tokenize undoVocab "undo".toList = some ["undo".toList]) := by
  have hreach : ∀ j, 1 ≤ j → j ≤ 2 →
      ∃ segs, IsVocabSeg unitVocab segs (("aa".toList).take j) := by
    intro j h1 h2
    interval_cases j
    · exact ⟨[['a']], by with_unfolding_all decide⟩
    · exact ⟨[['a'], ['a']], by with_unfolding_all decide⟩
  have habove : ∀ j, j ≤ 2 → ∀ segs, IsVocabSeg unitVocab segs (("aa".toList).take j) →
      f32MIN < segScore unitVocab segs := by
    intro j hj segs hsegs
    have hmem := (enumSegs_iff unitVocab (("aa".toList).take j) segs).mpr hsegs
    interval_cases j
    · rw [show enumSegs unitVocab (("aa".toList).take 0) = [[]] from
        by with_unfolding_all rfl] at hmem
      simp only [List.mem_singleton] at hmem
      subst hmem
      with_unfolding_all decide
    · rw [show enumSegs unitVocab (("aa".toList).take 1) = [[['a']]] from
        by with_unfolding_all rfl] at hmem
      simp only [List.mem_singleton] at hmem
      subst hmem
      with_unfolding_all decide
    · rw [show enumSegs unitVocab (("aa".toList).take 2) = [[['a'], ['a']]] from
        by with_unfolding_all rfl] at hmem
      simp only [List.mem_singleton] at hmem
      subst hmem
      with_unfolding_all decide
  exact ⟨by decide, hreach, habove,
    dp_optimal_for_reachable_prefixes unitVocab "aa".toList 2 (by decide) hreach habove⟩

/-- C5: whenever, after all candidates ending at a boundary `i ≥ 1` have been processed,
the running score is still at or below the `f32::MIN` sentinel, the forward pass stores
the forced single-character edge `{start = i-1, end = i, score = f32::MIN, id = 0}` and
resets the boundary's score to 0 — in the naive pass and in the accelerated pass. -/
theorem fallback_forces_unknown_edge :
    (∀ (p : Pieces) (t : List Char) (e : Nat), e + 1 ≤ t.length →
      (boundaryFold p t (forwardCells p t e) (e + 1)).1.ble (F.val f32MIN) = true →
      (decode_forward p t).getD (e + 1) none =
        some ⟨sliceCC t e (e + 1), F.val f32MIN, 0, e, e + 1⟩ ∧
      (forwardScores p t).getD (e + 1) F.negInf = F.val 0) ∧
    (∀ (root : DagNode) (t : List Char) (st : DPState) (k : Nat),
      st.results.length = t.length + 1 → st.scores.length = t.length + 1 →
      k < t.length →
      ((((common_prefix_search root (t.drop k)).getD []).foldl (dagMatchStep t k)
          st).scores.getD (k + 1) F.negInf).ble (F.val f32MIN) = true →
      (dagStartStep root t st k).results.getD (k + 1) none =
        some ⟨sliceCC t k (k + 1), F.val f32MIN, 0, k, k + 1⟩ ∧
      (dagStartStep root t st k).scores.getD (k + 1) F.negInf = F.val 0) := by
  constructor
  · intro p t e he hble
    constructor
    · rw [decode_forward_getD p t he, cellAt_succ_spec, if_pos hble]
    · rw [forwardScores_getD p t he, cellAt_succ_spec, if_pos hble]
  · intro root t st k hrl hsl hk hble
    have hlen1 : (((common_prefix_search root (t.drop k)).getD []).foldl
        (dagMatchStep t k) st).results.length = t.length + 1 := by
      rw [(dagMatchFold_length t k _ st).1, hrl]
    have hlen2 : (((common_prefix_search root (t.drop k)).getD []).foldl
        (dagMatchStep t k) st).scores.length = t.length + 1 := by
      rw [(dagMatchFold_length t k _ st).2, hsl]
    unfold dagStartStep
    rw [if_pos hble]
    constructor
    · exact getD_set_self _ _ _ _ (by rw [hlen1]; omega)
    · exact getD_set_self _ _ _ _ (by rw [hlen2]; omega)

theorem fallback_forces_unknown_edge_witness :
    (0 + 1 ≤ ("a".toList).length) ∧
    ((boundaryFold [] "a".toList (forwardCells [] "a".toList 0) (0 + 1)).1.ble
      (F.val f32MIN) = true) ∧
    ((decode_forward ([] : Pieces) "a".toList).getD (0 + 1) none =
      some ⟨sliceCC "a".toList 0 (0 + 1), F.val f32MIN, 0, 0, 0 + 1⟩ ∧
     (forwardScores ([] : Pieces) "a".toList).getD (0 + 1) F.negInf = F.val 0) ∧
    ((dpInit 1).results.length = ("a".toList).length + 1) ∧
    ((dpInit 1).scores.length = ("a".toList).length + 1) ∧
    (0 < ("a".toList).length) ∧
    (((((common_prefix_search (buildTrie []) (("a".toList).drop 0)).getD []).foldl
        (dagMatchStep "a".toList 0) (dpInit 1)).scores.getD (0 + 1) F.negInf).ble
      (F.val f32MIN) = true) ∧
    ((dagStartStep (buildTrie []) "a".toList (dpInit 1) 0).results.getD (0 + 1) none =
      some ⟨sliceCC "a".toList 0 (0 + 1), F.val f32MIN, 0, 0, 0 + 1⟩ ∧
     (dagStartStep (buildTrie []) "a".toList (dpInit 1) 0).scores.getD (0 + 1) F.negInf =
      F.val 0) := by
  have hb1 : (boundaryFold [] "a".toList (forwardCells [] "a".toList 0) (0 + 1)).1.ble
      (F.val f32MIN) = true := by with_unfolding_all rfl
  have hb2 : (((((common_prefix_search (buildTrie []) (("a".toList).drop 0)).getD
      []).foldl (dagMatchStep "a".toList 0) (dpInit 1)).scores.getD (0 + 1)
      F.negInf).ble (F.val f32MIN)) = true := by with_unfolding_all rfl
  exact ⟨by decide, hb1,
    fallback_forces_unknown_edge.1 [] "a".toList 0 (by decide) hb1, rfl, rfl, by decide,
    hb2,
    fallback_forces_unknown_edge.2 (buildTrie []) "a".toList (dpInit 1) 0 rfl rfl
      (by decide) hb2⟩

/-- C6: after either total forward pass, `best_edge[i]` is `None` exactly at `i = 0`:
every boundary `1..n` carries an edge. -/
theorem lattice_complete_none_iff_zero (p : Pieces) (t : List Char) (i : Nat)
    (hi : i ≤ t.length) :
    ((decode_forward p t).getD i none = none ↔ i = 0) ∧
    ((decode_forward_dag (buildTrie p) t).getD i none = none ↔ i = 0) := by
  constructor
  · rw [decode_forward_getD p t hi]
    constructor
    · intro h
      by_contra h0
      have := naive_edge_isSome p t i (by omega)
      rw [h] at this
      exact Bool.noConfusion this
    · intro h
      subst h
      exact naive_edge_none_zero p t
  · have inv := dagForwardState_inv (buildTrie p) t (buildTrie_wf p).1 (buildTrie_wf p).2
    constructor
    · intro h
      by_contra h0
      have := inv.hsome i (by omega) hi
      rw [show (decode_forward_dag (buildTrie p) t).getD i none
        = (dagForwardState (buildTrie p) t).results.getD i none from rfl] at h
      rw [h] at this
      exact Bool.noConfusion this
    · intro h
      subst h
      exact inv.hzero

theorem lattice_complete_none_iff_zero_witness :
    (1 ≤ ("ab".toList).length) ∧
    (((decode_forward unitVocab "ab".toList).getD 1 none = none ↔ (1 : Nat) = 0) ∧
     ((decode_forward_dag (buildTrie unitVocab) "ab".toList).getD 1 none = none ↔
       (1 : Nat) = 0)) :=
  ⟨by decide, lattice_complete_none_iff_zero unitVocab "ab".toList 1 (by decide)⟩

/-- Concrete edges used to exhibit the tie-break rule. -/
def nodeA : Node := ⟨['a'], F.val (-1), 0, 0, 1⟩

def nodeB : Node := ⟨['b'], F.val (-1/2), 1, 0, 1⟩

def nodeC : Node := ⟨['c'], F.val (-1/2), 2, 0, 1⟩

/-- C7: during a boundary's candidate fold, a candidate replaces the incumbent exactly
when its score is strictly greater: a candidate `c` that strictly beats everything
examined before it is selected, and no later candidate that fails to strictly beat `c`
(ties included) ever replaces it; symmetrically, when nothing strictly beats the
incumbent, edge and score are left untouched. -/
theorem tiebreak_strict_improvement (l₁ l₂ : List Node) (c : Node) (w0 : F)
    (r0 : Option Node) (h1 : (foldMax w0 l₁).blt c.score = true)
    (h2 : ∀ d ∈ l₂, c.score.blt d.score = false) :
    (l₁ ++ c :: l₂).foldl chooseStep (w0, r0) = (c.score, some c) ∧
    ∀ (cs : List Node) (w : F) (r : Option Node), (∀ d ∈ cs, w.blt d.score = false) →
      cs.foldl chooseStep (w, r) = (w, r) :=
  ⟨foldl_chooseStep_keeps_first_max l₁ l₂ c w0 r0 h1 h2,
   fun cs w r h => foldl_chooseStep_no_improve cs w r h⟩

theorem tiebreak_strict_improvement_witness :
    ((foldMax F.negInf [nodeA]).blt nodeB.score = true) ∧
    (∀ d ∈ [nodeC], nodeB.score.blt d.score = false) ∧
    (([nodeA] ++ nodeB :: [nodeC]).foldl chooseStep (F.negInf, none) =
      (nodeB.score, some nodeB) ∧
     ∀ (cs : List Node) (w : F) (r : Option Node), (∀ d ∈ cs, w.blt d.score = false) →
       cs.foldl chooseStep (w, r) = (w, r)) := by
  have h1 : (foldMax F.negInf [nodeA]).blt nodeB.score = true := by
    with_unfolding_all rfl
  have h2 : ∀ d ∈ [nodeC], nodeB.score.blt d.score = false := by
    intro d hd
    rw [List.mem_singleton.mp hd]
    with_unfolding_all rfl
  exact ⟨h1, h2, tiebreak_strict_improvement [nodeA] [nodeC] nodeB F.negInf none h1 h2⟩

/-- C10: over a vocabulary of non-empty piece texts, every stored edge satisfies
`start < end` with `end` equal to its boundary, so the backward pass terminates and
returns the path's edges in left-to-right order (adjacent edges chain
`previous.end = next.start`), for both total forward passes. -/
theorem edges_decrease_and_backward_terminates (p : Pieces) (t : List Char)
    (_hne : ∀ pr ∈ p, pr.1 ≠ ([] : List Char)) :
    (∀ i nd, (decode_forward p t).getD i none = some nd →
        nd.start < nd.endIdx ∧ nd.endIdx = i) ∧
    (∃ seq, decode_backward (decode_forward p t) = some seq ∧
        List.Chain' (fun a b => b.start = a.endIdx) seq) ∧
    (∀ i nd, (decode_forward_dag (buildTrie p) t).getD i none = some nd →
        nd.start < nd.endIdx ∧ nd.endIdx = i) ∧
    (∃ seq, decode_backward (decode_forward_dag (buildTrie p) t) = some seq ∧
        List.Chain' (fun a b => b.start = a.endIdx) seq) := by
  obtain ⟨hlen1, hzero1, hedge1, hsome1⟩ := naive_lattice_facts p t
  obtain ⟨hlen2, hzero2, hedge2, hsome2⟩ := dag_lattice_facts p t
  obtain ⟨seq1, hrun1, _, hch1, _⟩ := backward_complete t _ hlen1 hzero1 hedge1 hsome1
  obtain ⟨seq2, hrun2, _, hch2, _⟩ := backward_complete t _ hlen2 hzero2 hedge2 hsome2
  exact ⟨fun i nd h => ⟨(hedge1 i nd h).1, (hedge1 i nd h).2.1⟩,
    ⟨seq1, hrun1, hch1⟩,
    fun i nd h => ⟨(hedge2 i nd h).1, (hedge2 i nd h).2.1⟩,
    ⟨seq2, hrun2, hch2⟩⟩

theorem edges_decrease_and_backward_terminates_witness :
    (∀ pr ∈ unitVocab, pr.1 ≠ ([] : List Char)) ∧
    ((∀ i nd, (decode_forward unitVocab "ab".toList).getD i none = some nd →
        nd.start < nd.endIdx ∧ nd.endIdx = i) ∧
     (∃ seq, decode_backward (decode_forward unitVocab "ab".toList) = some seq ∧
        List.Chain' (fun a b => b.start = a.endIdx) seq) ∧
     (∀ i nd, (decode_forward_dag (buildTrie unitVocab) "ab".toList).getD i none =
        some nd → nd.start < nd.endIdx ∧ nd.endIdx = i) ∧
     (∃ seq, decode_backward (decode_forward_dag (buildTrie unitVocab) "ab".toList) =
        some seq ∧ List.Chain' (fun a b => b.start = a.endIdx) seq)) :=
  ⟨by decide, edges_decrease_and_backward_terminates unitVocab "ab".toList (by decide)⟩
